import Mathlib

/-!
Verification of the content-chunking and retrieval-ranking pipeline of the
studybuddy-fastapi repository: the timestamp-aware transcript chunker
(app/chunking.py), the slide chunker (app/chunkings/slide_chunking.py), and
the knowledge-retriever fanout (app/chat_agent.py).

Python strings are embedded as lists of characters (`Str`), Python ints as
`Int`, dictionaries with fixed key sets as structures whose optional keys are
`Option` fields, and fallible code as `Except`-valued functions.  The external
library helper `ChunkingStrategy.clean_text` is not part of the repository;
it is modelled from the spec as canonical whitespace normalisation
(split on whitespace, re-join with single spaces).
-/

/-- Python strings are modelled as lists of characters. -/
abbrev Str := List Char

/-- Whitespace test used by the model of Python str.split / str.strip. -/
def isWs (c : Char) : Bool :=
  c == ' ' || c == '\n' || c == '\t' || c == '\r'

/-- Model of Python str.lstrip(): drop leading whitespace. -/
def ltrim (l : Str) : Str := l.dropWhile isWs

/-- Model of Python str.rstrip(): drop trailing whitespace. -/
def rtrim (l : Str) : Str := (l.reverse.dropWhile isWs).reverse

/-- Model of Python str.strip(). -/
def trim (l : Str) : Str := ltrim (rtrim l)

/-- Helper for the model of Python str.split(): walk the characters keeping
the (reversed) current word in an accumulator. -/
def wordsAux : Str → Str → List Str
  | [], acc => if acc.isEmpty then [] else [acc.reverse]
  | c :: cs, acc =>
    if isWs c then
      if acc.isEmpty then wordsAux cs [] else acc.reverse :: wordsAux cs []
    else wordsAux cs (c :: acc)

/-- Model of Python str.split() with no arguments: the list of maximal
whitespace-free non-empty runs. -/
def wordsOf (l : Str) : List Str := wordsAux l []

/-- Model of Python " ".join(words). -/
def joinWords : List Str → Str
  | [] => []
  | [w] => w
  | w :: ws => w ++ ' ' :: joinWords ws

/-- Modelled from the spec: the external ChunkingStrategy.clean_text helper,
described as a canonical whitespace-normalising clean step.  It collapses any
whitespace to single spaces and strips the ends. -/
def clean_text (l : Str) : Str := joinWords (wordsOf l)

/-- The substring of l of length d.length starting at position i equals d. -/
def matchAt (t d : Str) (i : Nat) : Bool :=
  decide ((t.drop i).take d.length = d)

/-- Model of Python s.find(d, i0): least match position at or after i0. -/
def py_find (s d : Str) (i0 : Nat) : Option Nat :=
  ((List.range (s.length + 1)).filter
    (fun i => decide (i0 ≤ i) && matchAt s d i)).head?

/-- Model of Python s.rfind(d, 0, j): greatest position whose match lies
entirely inside s[0:j]. -/
def py_rfind (s d : Str) (j : Nat) : Option Nat :=
  ((List.range (j + 1)).filter
    (fun i => decide (i + d.length ≤ j) && matchAt s d i)).getLast?

/-- Substring containment test (used to state "content contains ..."). -/
def has_sub (s sub : Str) : Bool :=
  (List.range (s.length + 1)).any (fun i => matchAt s sub i)

/-- Model of a Python index for slicing: negative indices count from the end,
out-of-range indices clamp. -/
def py_idx (len : Nat) (i : Int) : Nat :=
  if i < 0 then ((len : Int) + i).toNat else min i.toNat len

/-- Model of the Python slice l[a:b]. -/
def py_slice (l : List α) (a b : Int) : List α :=
  (l.take (py_idx l.length b)).drop (py_idx l.length a)

/-! ## The timestamp-aware transcript chunker (app/chunking.py) -/

/-- One entry of the transcript_segments metadata: a dict with a text and
optional start_ms / end_ms keys (a missing text key behaves as ""). -/
structure TSegment where
  text : Str
  start_ms : Option Int
  end_ms : Option Int
deriving DecidableEq, Repr

/-- The agno Document as consumed by TimestampAwareChunking: its id, name,
content, and the segments list found in its meta_data (empty when absent). -/
structure TDocument where
  id : Option String
  name : String
  content : Str
  segments : List TSegment
deriving DecidableEq, Repr

/-- A chunk Document emitted by TimestampAwareChunking, with the metadata keys
the chunker writes (chunk_index, chunking_strategy, start_ms, end_ms). -/
structure TChunk where
  id : Option String
  name : String
  content : Str
  chunk_index : Nat
  strategy : String
  start_ms : Option Int
  end_ms : Option Int
deriving DecidableEq, Repr

/-- The TimestampAwareChunking configuration dataclass. -/
structure TCfg where
  max_words : Int
  max_duration_ms : Int
  overlap_ms : Int
deriving DecidableEq, Repr

/-- TimestampAwareChunking._chunk_ready: a non-empty buffer is ready when its
length reached max_words, or when both endpoint timestamps are known and the
spanned duration reached max_duration_ms. -/
def chunk_ready (cfg : TCfg) (buffer : List TSegment) : Bool :=
  if buffer.isEmpty then false
  else if cfg.max_words ≤ (buffer.length : Int) then true
  else
    match buffer.head?, buffer.getLast? with
    | some f, some lst =>
      match f.start_ms, lst.end_ms with
      | some s, some e => cfg.max_duration_ms ≤ e - s
      | _, _ => false
    | _, _ => false

/-- TimestampAwareChunking._flush_chunk: join the buffered texts with spaces,
clean, and record the first start_ms and last end_ms. -/
def flush_chunk (doc : TDocument) (buffer : List TSegment) (chunk_idx : Nat) : TChunk :=
  { id := doc.id.map (fun i => i ++ "_" ++ toString (chunk_idx + 1))
    name := doc.name
    content := clean_text (joinWords (buffer.map TSegment.text))
    chunk_index := chunk_idx + 1
    strategy := "timestamp_aware"
    start_ms := buffer.head?.bind TSegment.start_ms
    end_ms := buffer.getLast?.bind TSegment.end_ms }

/-- TimestampAwareChunking._overlap_tail: the buffered segments whose end_ms
(unknown treated as 0) is within overlap_ms of the last segment's end_ms. -/
def overlap_tail (cfg : TCfg) (buffer : List TSegment) : List TSegment :=
  if buffer.isEmpty ∨ cfg.overlap_ms ≤ 0 then []
  else
    match buffer.getLast?.bind TSegment.end_ms with
    | none => []
    | some e =>
      buffer.filter (fun entry => decide (e - cfg.overlap_ms ≤ entry.end_ms.getD 0))

/-- The loop state of TimestampAwareChunking.chunk: emitted chunks and the
current buffer. -/
structure TState where
  chunks : List TChunk
  buffer : List TSegment
deriving DecidableEq, Repr

/-- The buffer entry built from one raw segment item: its stripped text and
its (possibly missing) start_ms / end_ms values. -/
def buffer_entry (item : TSegment) : TSegment :=
  { text := trim item.text, start_ms := item.start_ms, end_ms := item.end_ms }

/-- One iteration of the segment loop in TimestampAwareChunking.chunk: skip an
empty-after-strip text, otherwise append to the buffer and, when the buffer is
ready, flush it and keep only the overlap tail. -/
def append_step (cfg : TCfg) (doc : TDocument) (st : TState) (item : TSegment) : TState :=
  let t := trim item.text
  if t = [] then st
  else
    let buffer := st.buffer ++ [buffer_entry item]
    if chunk_ready cfg buffer then
      { chunks := st.chunks ++ [flush_chunk doc buffer st.chunks.length]
        buffer := overlap_tail cfg buffer }
    else
      { chunks := st.chunks, buffer := buffer }

/-- A chunk of the fallback path, tagged timestamp_aware_fallback with no
timing metadata. -/
def mk_fallback_chunk (doc : TDocument) (n : Nat) (cw : List Str) : TChunk :=
  { id := doc.id.map (fun i => i ++ "_" ++ toString (n + 1))
    name := doc.name
    content := joinWords cw
    chunk_index := n + 1
    strategy := "timestamp_aware_fallback"
    start_ms := none
    end_ms := none }

/-- The while loop of TimestampAwareChunking._fallback_chunks, written with
explicit fuel: each iteration slices words[cursor : cursor + max_words],
advances the cursor by max_words, and emits the slice when non-empty.  For
max_words ≤ 0 the Python loop never terminates; the fuel then runs out after
faithfully reproducing the chunks of the first iterations (see the
termination theorem for the loop's cursor dynamics). -/
def fallback_loop (doc : TDocument) (max_words : Int) (words : List Str) :
    Nat → Int → List TChunk → List TChunk
  | 0, _, acc => acc
  | fuel + 1, cursor, acc =>
    if cursor < (words.length : Int) then
      let chunk_words := py_slice words cursor (cursor + max_words)
      if chunk_words = [] then
        fallback_loop doc max_words words fuel (cursor + max_words) acc
      else
        fallback_loop doc max_words words fuel (cursor + max_words)
          (acc ++ [mk_fallback_chunk doc acc.length chunk_words])
    else acc

/-- TimestampAwareChunking._fallback_chunks: clean and whitespace-split the
content, then group consecutive runs of max_words words. -/
def fallback_chunks (cfg : TCfg) (doc : TDocument) : List TChunk :=
  let words := wordsOf (clean_text doc.content)
  fallback_loop doc cfg.max_words words (words.length + 1) 0 []

/-- The cursor of the fallback while-loop after n iterations: it starts at 0
and each iteration adds max_words.  The loop guard is cursor < len(words). -/
def cursor_after (max_words : Int) : Nat → Int
  | 0 => 0
  | n + 1 => cursor_after max_words n + max_words

/-- TimestampAwareChunking.chunk: fall back when no segments exist, otherwise
run the segment loop and flush any non-empty final buffer. -/
def tchunk (cfg : TCfg) (doc : TDocument) : List TChunk :=
  if doc.segments.isEmpty then fallback_chunks cfg doc
  else
    let st := doc.segments.foldl (append_step cfg doc) ⟨[], []⟩
    if st.buffer.isEmpty then st.chunks
    else st.chunks ++ [flush_chunk doc st.buffer st.chunks.length]

/-- The four-segment example document of the spec and of
tests/test_chunking.py. -/
def ex_doc : TDocument :=
  { id := some "lecture_1"
    name := "Concurrency 101"
    content := "Hello world".data
    segments :=
      [ { text := "Good".data, start_ms := some 0, end_ms := some 500 }
      , { text := "morning".data, start_ms := some 500, end_ms := some 1100 }
      , { text := "everyone".data, start_ms := some 1100, end_ms := some 1900 }
      , { text := "today".data, start_ms := some 1900, end_ms := some 2600 } ] }

/-- The example configuration max_words=2, max_duration_ms=2000,
overlap_ms=400. -/
def ex_cfg : TCfg := { max_words := 2, max_duration_ms := 2000, overlap_ms := 400 }

/-! ## The slide chunker (app/chunkings/slide_chunking.py) -/

/-- The agno Document as consumed by SlideChunking. -/
structure SDoc where
  id : Option String
  name : String
  content : Str
deriving DecidableEq, Repr

/-- A chunk Document emitted by SlideChunking, with the metadata keys the
chunker writes (chunk, total_chunks, chunking_strategy); the pathological
fallback branch returns the original document, which carries none of them. -/
structure SChunk where
  id : Option String
  name : String
  content : Str
  chunk : Option Nat
  total_chunks : Option Nat
  strategy : Option String
deriving DecidableEq, Repr

/-- The literal delimiter list of SlideChunking._find_split_point, including
the duplicated period-newline token. -/
def delims_src : List Str :=
  [".\n".data, ".\n\n".data, "!\n".data, "?\n".data, ".\n".data,
   "! ".data, "? ".data, ". ".data]

/-- The deduplicated delimiter sequence named by the spec. -/
def delims_dedup : List Str :=
  [".\n".data, "!\n".data, "?\n".data, "! ".data, "? ".data, ". ".data]

/-- One delimiter probe of _find_split_point: backward search below the
preferred point first, then forward search, each returning the position just
past the delimiter (window-local positions shifted by the window start). -/
def try_delim (search_text : Str) (start pref : Nat) (d : Str) : Option Nat :=
  match py_rfind search_text d pref with
  | some pos => some (start + pos + d.length)
  | none =>
    match py_find search_text d pref with
    | some pos => some (start + pos + d.length)
    | none => none

/-- SlideChunking._find_split_point with an explicit delimiter list: search a
window of 200 characters around the preferred point, first hit across the
ordered delimiter list wins, preferred point when none hits. -/
def find_split_point_with (delims : List Str) (text : Str) (preferred : Nat) : Nat :=
  let start := preferred - 200
  let stop := min text.length (preferred + 200)
  let search_text := (text.take stop).drop start
  match delims.findSome? (try_delim search_text start (preferred - start)) with
  | some p => p
  | none => preferred

/-- SlideChunking._find_split_point with its literal delimiter list. -/
def find_split_point (text : Str) (preferred : Nat) : Nat :=
  find_split_point_with delims_src text preferred

/-- SlideChunking.chunk: one chunk when the cleaned content fits max_chars,
otherwise two trimmed halves split near a sentence boundary at the middle. -/
def slide_chunk (max_chars : Int) (doc : SDoc) : List SChunk :=
  let content := clean_text doc.content
  if content.isEmpty then []
  else if (content.length : Int) ≤ max_chars then
    [{ id := doc.id, name := doc.name, content := content,
       chunk := some 1, total_chunks := some 1, strategy := some "slide_chunking" }]
  else
    let mid := content.length / 2
    let split_point := find_split_point content mid
    let chunk1 := trim (content.take split_point)
    let chunk2 := trim (content.drop split_point)
    let chunks :=
      (if chunk1.isEmpty then []
       else [{ id := doc.id.map (fun i => i ++ "_chunk_1"),
               name := doc.name ++ " (Part 1/2)", content := chunk1,
               chunk := some 1, total_chunks := some 2,
               strategy := some "slide_chunking" }]) ++
      (if chunk2.isEmpty then []
       else [{ id := doc.id.map (fun i => i ++ "_chunk_2"),
               name := doc.name ++ " (Part 2/2)", content := chunk2,
               chunk := some 2, total_chunks := some 2,
               strategy := some "slide_chunking" }])
    if chunks.isEmpty then
      [{ id := doc.id, name := doc.name, content := doc.content,
         chunk := none, total_chunks := none, strategy := none }]
    else chunks

/-- A slide description record from the API response: a dict whose keys may
individually be missing.  page_number, slide_type and overall_summary are read
with mandatory indexing (KeyError when missing); the rest default to "". -/
structure SlideDesc where
  page_number : Option Int
  slide_type : Option Str
  overall_summary : Option Str
  text_content : Option Str
  images_description : Option Str
  diagrams_description : Option Str
  figures_description : Option Str
deriving DecidableEq, Repr

/-- Mandatory dict lookup desc[key]: raises KeyError when the key is absent. -/
def require (o : Option α) (key : String) : Except String α :=
  match o with
  | some v => Except.ok v
  | none => Except.error ("KeyError: " ++ key)

/-- Model of Python "\n".join(parts). -/
def nl_join : List Str → Str
  | [] => []
  | [p] => p
  | p :: ps => p ++ '\n' :: nl_join ps

/-- The content assembly of chunk_slide_descriptions for one description
record: labelled sections joined by newlines. -/
def desc_content (d : SlideDesc) : Except String Str := do
  let pn ← require d.page_number "page_number"
  let stype ← require d.slide_type "slide_type"
  let summ ← require d.overall_summary "overall_summary"
  pure (nl_join
    [ "Page ".data ++ (toString pn).data
    , "Slide Type: ".data ++ stype
    , "Summary: ".data ++ summ
    , []
    , "Text Content:".data
    , d.text_content.getD []
    , []
    , "Images:".data
    , d.images_description.getD []
    , []
    , "Diagrams:".data
    , d.diagrams_description.getD []
    , []
    , "Figures:".data
    , d.figures_description.getD [] ])

/-- chunk_slide_descriptions: build one document per description record and
concatenate the per-page slide chunks; a record missing a mandatory key makes
the whole call raise. -/
def chunk_slide_descriptions (descs : List SlideDesc) (document_id : String)
    (max_chars : Int) : Except String (List SChunk) :=
  descs.foldlM
    (fun acc d => do
      let content ← desc_content d
      let pn ← require d.page_number "page_number"
      let doc : SDoc :=
        { id := some (document_id ++ "_page_" ++ toString pn)
          name := "Slide " ++ toString pn
          content := content }
      pure (acc ++ slide_chunk max_chars doc))
    []

/-! ## The knowledge-retriever fanout (app/chat_agent.py) -/

/-- The source scope of a retrieval request. -/
inductive Scope
  | lectures
  | slides
  | combined
deriving DecidableEq, Repr

/-- A search-result document dict as returned by Knowledge.search(...).to_dict:
the retriever reads its meta_data and score keys. -/
structure RDoc where
  id : Option String
  content : Str
  meta : List (String × String)
  score : Option Int
deriving DecidableEq, Repr

/-- The sort key of the retriever: d.get("score") or 0, a missing (or zero,
hence falsy) score counting as 0. -/
def eff_score (d : RDoc) : Int :=
  match d.score with
  | none => 0
  | some s => s

/-- Model of dict.setdefault(k, v): add the binding only when k is absent. -/
def set_default (meta : List (String × String)) (k v : String) :
    List (String × String) :=
  if (meta.lookup k).isSome then meta else meta ++ [(k, v)]

/-- Labelling of one fetched document with its knowledge_source. -/
def label_doc (label : String) (d : RDoc) : RDoc :=
  { d with meta := set_default d.meta "knowledge_source" label }

/-- StudyBuddyChatAgent._select_sources: scope resolved to collection labels,
lectures before slides for the combined scope. -/
def select_sources : Scope → List String
  | .lectures => ["lectures"]
  | .slides => ["slides"]
  | .combined => ["lectures", "slides"]

/-- Stable insertion for the descending sort: a document is placed after every
earlier-fetched document of greater-or-equal effective score. -/
def insert_desc (x : RDoc) : List RDoc → List RDoc
  | [] => [x]
  | y :: ys => if eff_score y ≤ eff_score x then x :: y :: ys else y :: insert_desc x ys

/-- Model of combined_docs.sort(key=lambda d: d.get("score") or 0,
reverse=True): Python list.sort is a stable sort, embedded as stable insertion
sort on the effective score, descending. -/
def sort_desc : List RDoc → List RDoc
  | [] => []
  | x :: xs => insert_desc x (sort_desc xs)

/-- StudyBuddyChatAgent._knowledge_retriever.  The external vector-store
search is opaque and passed as a function from collection label to its result
list (the query, per-collection max_results and filters are already applied
inside it).  Note the Python truthiness test "if num_documents:" before
truncation: num_documents = 0 is falsy and does not truncate. -/
def knowledge_retriever (search : String → List RDoc) (num_documents : Option Nat)
    (source : Scope) : List RDoc :=
  let combined := (select_sources source).foldl
    (fun acc label => acc ++ (search label).map (label_doc label)) []
  let sorted := sort_desc combined
  match num_documents with
  | some n => if n = 0 then sorted else sorted.take n
  | none => sorted

/-! ## Derived notions and concrete fixtures used by the theorems -/

/-- The start_ms of a segment with unknown treated as 0 (the code compares
only known values; under the well-formedness hypotheses all are known). -/
def start_val (x : TSegment) : Int := x.start_ms.getD 0

/-- The end_ms of a segment with unknown treated as 0. -/
def end_val (x : TSegment) : Int := x.end_ms.getD 0

/-- The start_ms of a chunk with unknown treated as 0. -/
def chunk_start (c : TChunk) : Int := c.start_ms.getD 0

/-- A well-formed transcript segment: both timestamps known and ordered. -/
def seg_wf (x : TSegment) : Prop :=
  (∃ s, x.start_ms = some s) ∧ (∃ e, x.end_ms = some e) ∧ start_val x ≤ end_val x

/-- A well-timed chunk: both timestamps known and ordered. -/
def chunk_wf (c : TChunk) : Prop :=
  (∃ s, c.start_ms = some s) ∧ (∃ e, c.end_ms = some e) ∧
    chunk_start c ≤ c.end_ms.getD 0

/-- The invariant of the segment loop used for the monotonic-time-ranges
property, relating the loop state to the not-yet-processed segments. -/
structure TInv (st : TState) (rest : List TSegment) : Prop where
  buf_wf : ∀ x ∈ st.buffer, seg_wf x
  buf_sorted : st.buffer.Pairwise (fun a b => start_val a ≤ start_val b)
  buf_rest : ∀ x ∈ st.buffer, ∀ y ∈ rest, start_val x ≤ start_val y
  rest_wf : ∀ y ∈ rest, seg_wf y
  rest_sorted : rest.Pairwise (fun a b => start_val a ≤ start_val b)
  chunks_sorted : (st.chunks.map chunk_start).Pairwise (fun a b => a ≤ b)
  chunks_wf : ∀ c ∈ st.chunks, chunk_wf c
  chunks_buf : ∀ c ∈ st.chunks, ∀ x ∈ st.buffer, chunk_start c ≤ start_val x
  chunks_rest : ∀ c ∈ st.chunks, ∀ y ∈ rest, chunk_start c ≤ start_val y

/-- A segment whose stripped text still contains a visible character. -/
def has_text (x : TSegment) : Prop := ∃ c ∈ x.text, isWs c = false

/-- The invariant of the segment loop used for the non-empty-content
property. -/
def CInv (st : TState) : Prop :=
  (∀ x ∈ st.buffer, has_text x) ∧ (∀ c ∈ st.chunks, trim c.content ≠ [])

/-- A transcript document whose single segment has end_ms before start_ms:
well-formed per-segment timestamps are an assumption the code never checks. -/
def c5_doc1 : TDocument :=
  { id := none, name := "bad", content := []
    segments := [{ text := "a".data, start_ms := some 10, end_ms := some 0 }] }

/-- A transcript document whose segments are not sorted by start_ms. -/
def c5_doc2 : TDocument :=
  { id := none, name := "unsorted", content := []
    segments :=
      [ { text := "a".data, start_ms := some 100, end_ms := some 200 }
      , { text := "b".data, start_ms := some 0, end_ms := some 50 } ] }

/-- A configuration that flushes after every segment and keeps no overlap. -/
def c5_cfg : TCfg := { max_words := 1, max_duration_ms := 90000, overlap_ms := 0 }

/-- A one-character slide document. -/
def c6_doc : SDoc := { id := none, name := "s", content := "a".data }

/-- A short slide document for the witness. -/
def c6_doc2 : SDoc := { id := some "d", name := "s2", content := "ab".data }

/-- A slide description record lacking the page_number key. -/
def bad_desc : SlideDesc :=
  { page_number := none
    slide_type := some "content".data
    overall_summary := some "sum".data
    text_content := some "text".data
    images_description := none
    diagrams_description := none
    figures_description := none }

/-- A whitespace-only slide document. -/
def ws_doc : SDoc := { id := none, name := "w", content := "  ".data }

/-- A lectures search result with score 5. -/
def rd1 : RDoc := { id := some "a", content := "x".data, meta := [], score := some 5 }

/-- A slides search result with score 7. -/
def rd2 : RDoc := { id := some "b", content := "y".data, meta := [], score := some 7 }

/-- A concrete opaque search function: one hit per collection. -/
def ex_search : String → List RDoc :=
  fun label =>
    if label = "lectures" then [rd1]
    else if label = "slides" then [rd2]
    else []

/-- The labelled concatenation of the two collections' search results in
fetch order, lectures first: the list the combined retriever sorts. -/
def merged_docs (search : String → List RDoc) : List RDoc :=
  (search "lectures").map (label_doc "lectures") ++
    (search "slides").map (label_doc "slides")

/-- A concrete two-entry buffer used to instantiate the readiness theorem. -/
def w_buf : List TSegment :=
  [ { text := "Good".data, start_ms := some 0, end_ms := some 500 }
  , { text := "morning".data, start_ms := some 500, end_ms := some 1100 } ]

/-! ## Lemmas about the text primitives -/

theorem mem_ltrim {c : Char} {l : Str} (h : c ∈ l) (hc : isWs c = false) : c ∈ ltrim l := by
  have hmem : c ∈ l.takeWhile isWs ++ l.dropWhile isWs := by
    rw [List.takeWhile_append_dropWhile]; exact h
  rcases List.mem_append.mp hmem with h1 | h2
  · have := List.mem_takeWhile_imp h1
    rw [hc] at this; cases this
  · exact h2

theorem mem_of_mem_ltrim {c : Char} {l : Str} (h : c ∈ ltrim l) : c ∈ l :=
  (List.dropWhile_sublist isWs).mem h

theorem mem_rtrim {c : Char} {l : Str} (h : c ∈ l) (hc : isWs c = false) : c ∈ rtrim l := by
  have h1 : c ∈ l.reverse := List.mem_reverse.mpr h
  have h2 : c ∈ l.reverse.dropWhile isWs := mem_ltrim h1 hc
  exact List.mem_reverse.mpr h2

theorem mem_of_mem_rtrim {c : Char} {l : Str} (h : c ∈ rtrim l) : c ∈ l := by
  have h1 : c ∈ l.reverse.dropWhile isWs := List.mem_reverse.mp h
  have h2 : c ∈ l.reverse := (List.dropWhile_sublist isWs).mem h1
  exact List.mem_reverse.mp h2

theorem mem_trim {c : Char} {l : Str} (h : c ∈ l) (hc : isWs c = false) : c ∈ trim l :=
  mem_ltrim (mem_rtrim h hc) hc

theorem mem_of_mem_trim {c : Char} {l : Str} (h : c ∈ trim l) : c ∈ l :=
  mem_of_mem_rtrim (mem_of_mem_ltrim h)

theorem trim_eq_nil_iff {l : Str} : trim l = [] ↔ ∀ c ∈ l, isWs c = true := by
  constructor
  · intro h c hc
    by_contra hw
    have hw' : isWs c = false := by simpa using hw
    have := mem_trim hc hw'
    rw [h] at this
    cases this
  · intro h
    have h1 : ∀ c ∈ rtrim l, isWs c = true := fun c hc => h c (mem_of_mem_rtrim hc)
    exact List.dropWhile_eq_nil_iff.mpr h1

theorem trim_ne_nil_iff {l : Str} : trim l ≠ [] ↔ ∃ c ∈ l, isWs c = false := by
  rw [Ne, trim_eq_nil_iff]
  constructor
  · intro h
    by_contra hx
    push_neg at hx
    apply h
    intro c hc
    have := hx c hc
    simpa using this
  · rintro ⟨c, hc, hw⟩ hall
    have := hall c hc
    rw [this] at hw
    cases hw

theorem ltrim_decomp (l : Str) : ∃ w, l = w ++ ltrim l ∧ ∀ c ∈ w, isWs c = true := by
  refine ⟨l.takeWhile isWs, ?_, ?_⟩
  · exact (List.takeWhile_append_dropWhile isWs l).symm
  · intro c hc
    exact List.mem_takeWhile_imp hc

theorem rtrim_decomp (l : Str) : ∃ w, l = rtrim l ++ w ∧ ∀ c ∈ w, isWs c = true := by
  refine ⟨(l.reverse.takeWhile isWs).reverse, ?_, ?_⟩
  · conv_lhs => rw [← l.reverse_reverse, ← List.takeWhile_append_dropWhile isWs l.reverse]
    rw [List.reverse_append]
    rfl
  · intro c hc
    exact List.mem_takeWhile_imp (List.mem_reverse.mp hc)

theorem ltrim_eq_self {l : Str} (h : ∀ c, l.head? = some c → isWs c = false) : ltrim l = l := by
  cases l with
  | nil => rfl
  | cons a t =>
    have ha := h a rfl
    simp [ltrim, List.dropWhile_cons, ha]

theorem rtrim_eq_self {l : Str} (h : ∀ c, l.getLast? = some c → isWs c = false) : rtrim l = l := by
  have h1 : ltrim l.reverse = l.reverse := by
    apply ltrim_eq_self
    intro c hc
    apply h
    rwa [← List.head?_reverse]
  show (l.reverse.dropWhile isWs).reverse = l
  rw [show l.reverse.dropWhile isWs = ltrim l.reverse from rfl, h1, List.reverse_reverse]

theorem trim_of_head {l : Str} (h : ∀ c, l.head? = some c → isWs c = false) :
    trim l = rtrim l := by
  show ltrim (rtrim l) = rtrim l
  rcases rtrim_decomp l with ⟨w, hw, -⟩
  apply ltrim_eq_self
  intro c hc
  cases hr : rtrim l with
  | nil =>
    rw [hr] at hc
    cases hc
  | cons a t =>
    rw [hr] at hc
    have hac : a = c := by
      have h2 : some a = some c := hc
      injection h2
    subst hac
    apply h
    rw [hw, hr]
    rfl

theorem trim_of_last {l : Str} (h : ∀ c, l.getLast? = some c → isWs c = false) :
    trim l = ltrim l := by
  show ltrim (rtrim l) = ltrim l
  rw [rtrim_eq_self h]

theorem wordsAux_mem :
    ∀ {l acc : Str}, (∀ c ∈ acc, isWs c = false) →
      ∀ w ∈ wordsAux l acc, w ≠ [] ∧ ∀ c ∈ w, isWs c = false := by
  intro l
  induction l with
  | nil =>
    intro acc hacc w hw
    cases acc with
    | nil => simp [wordsAux] at hw
    | cons a t =>
      simp only [wordsAux, List.isEmpty_cons, Bool.false_eq_true, if_false,
        List.mem_singleton] at hw
      subst hw
      refine ⟨by simp, ?_⟩
      intro c hc
      exact hacc c (List.mem_reverse.mp hc)
  | cons c0 cs ih =>
    intro acc hacc w hw
    simp only [wordsAux] at hw
    by_cases hc0 : isWs c0
    · rw [if_pos hc0] at hw
      cases acc with
      | nil =>
        simp only [List.isEmpty_nil, if_true] at hw
        exact ih (by intro c hc; cases hc) w hw
      | cons a t =>
        simp only [List.isEmpty_cons, Bool.false_eq_true, if_false,
          List.mem_cons] at hw
        rcases hw with h | h
        · subst h
          refine ⟨by simp, ?_⟩
          intro c hc
          exact hacc c (List.mem_reverse.mp hc)
        · exact ih (by intro c hc; cases hc) w h
    · rw [if_neg hc0] at hw
      refine ih ?_ w hw
      intro c hc
      rcases List.mem_cons.mp hc with h | h
      · subst h
        simpa using hc0
      · exact hacc c h

theorem wordsAux_ne_nil_of_acc :
    ∀ {l acc : Str}, acc ≠ [] → wordsAux l acc ≠ [] := by
  intro l
  induction l with
  | nil =>
    intro acc hacc
    cases acc with
    | nil => exact absurd rfl hacc
    | cons a t => simp [wordsAux]
  | cons c0 cs ih =>
    intro acc hacc
    simp only [wordsAux]
    by_cases hc0 : isWs c0
    · rw [if_pos hc0]
      cases acc with
      | nil => exact absurd rfl hacc
      | cons a t => simp
    · rw [if_neg hc0]
      exact ih (by simp)

theorem wordsAux_ne_nil :
    ∀ {l : Str}, (∃ c ∈ l, isWs c = false) → ∀ {acc : Str}, wordsAux l acc ≠ [] := by
  intro l
  induction l with
  | nil =>
    rintro ⟨c, hc, -⟩
    cases hc
  | cons c0 cs ih =>
    rintro ⟨c, hc, hcw⟩ acc
    simp only [wordsAux]
    by_cases hc0 : isWs c0
    · rw [if_pos hc0]
      have hcs : ∃ x ∈ cs, isWs x = false := by
        rcases List.mem_cons.mp hc with h | h
        · subst h
          rw [hc0] at hcw
          cases hcw
        · exact ⟨c, h, hcw⟩
      cases acc with
      | nil =>
        simp only [List.isEmpty_nil, if_true]
        exact ih hcs
      | cons a t => simp
    · rw [if_neg hc0]
      exact wordsAux_ne_nil_of_acc (by simp)

theorem wordsAux_eq_nil {l : Str} (h : ∀ c ∈ l, isWs c = true) : wordsAux l [] = [] := by
  induction l with
  | nil => rfl
  | cons c0 cs ih =>
    have hc0 : isWs c0 = true := h c0 (by simp)
    simp only [wordsAux]
    rw [if_pos hc0]
    simp only [List.isEmpty_nil, if_true]
    exact ih (fun c hc => h c (List.mem_cons_of_mem _ hc))

theorem mem_joinWords {c : Char} {w : Str} {ws : List Str}
    (hc : c ∈ w) (hw : w ∈ ws) : c ∈ joinWords ws := by
  induction ws with
  | nil => cases hw
  | cons w0 rest ih =>
    cases rest with
    | nil =>
      have hw' : w = w0 := List.mem_singleton.mp hw
      subst hw'
      simpa [joinWords] using hc
    | cons w1 r1 =>
      show c ∈ w0 ++ ' ' :: joinWords (w1 :: r1)
      rcases List.mem_cons.mp hw with h | h
      · subst h
        exact List.mem_append.mpr (Or.inl hc)
      · exact List.mem_append.mpr (Or.inr (List.mem_cons_of_mem _ (ih h)))

theorem joinWords_head {ws : List Str} (hne : ws ≠ [])
    (hw : ∀ w ∈ ws, w ≠ [] ∧ ∀ c ∈ w, isWs c = false) :
    ∃ h1 t, joinWords ws = h1 :: t ∧ isWs h1 = false := by
  cases ws with
  | nil => exact absurd rfl hne
  | cons w0 rest =>
    obtain ⟨hw0ne, hw0⟩ := hw w0 (by simp)
    cases w0 with
    | nil => exact absurd rfl hw0ne
    | cons a t0 =>
      cases rest with
      | nil => exact ⟨a, t0, rfl, hw0 a (by simp)⟩
      | cons w1 r1 =>
        exact ⟨a, t0 ++ ' ' :: joinWords (w1 :: r1), rfl, hw0 a (by simp)⟩

theorem joinWords_getLast {ws : List Str} (hne : ws ≠ [])
    (hw : ∀ w ∈ ws, w ≠ [] ∧ ∀ c ∈ w, isWs c = false) :
    ∃ c, (joinWords ws).getLast? = some c ∧ isWs c = false := by
  induction ws with
  | nil => exact absurd rfl hne
  | cons w0 rest ih =>
    cases rest with
    | nil =>
      obtain ⟨hne0, hch⟩ := hw w0 (by simp)
      cases hgl : w0.getLast? with
      | none => exact absurd (List.getLast?_eq_none_iff.mp hgl) hne0
      | some c =>
        exact ⟨c, by simpa [joinWords] using hgl, hch c (List.mem_of_mem_getLast? hgl)⟩
    | cons w1 r1 =>
      obtain ⟨c, hc, hcw⟩ := ih (by simp) (fun w hw' => hw w (List.mem_cons_of_mem _ hw'))
      have hJne : joinWords (w1 :: r1) ≠ [] := by
        intro hnil
        rw [hnil] at hc
        cases hc
      refine ⟨c, ?_, hcw⟩
      show (w0 ++ ' ' :: joinWords (w1 :: r1)).getLast? = some c
      rw [List.getLast?_append_of_ne_nil w0 (by simp)]
      rw [show (' ' :: joinWords (w1 :: r1)) = [' '] ++ joinWords (w1 :: r1) from rfl]
      rw [List.getLast?_append_of_ne_nil [' '] hJne]
      exact hc

theorem clean_text_eq_nil_iff {l : Str} : clean_text l = [] ↔ ∀ c ∈ l, isWs c = true := by
  constructor
  · intro h c hc
    by_contra hn
    have hn' : isWs c = false := by simpa using hn
    have hwne : wordsOf l ≠ [] := wordsAux_ne_nil ⟨c, hc, hn'⟩
    obtain ⟨h1, t, hj, -⟩ := joinWords_head hwne (wordsAux_mem (by intro x hx; cases hx))
    rw [show clean_text l = joinWords (wordsOf l) from rfl, hj] at h
    cases h
  · intro h
    show joinWords (wordsAux l []) = []
    rw [wordsAux_eq_nil h]
    rfl

theorem clean_text_props {l : Str} (h : clean_text l ≠ []) :
    (∃ h1 t, clean_text l = h1 :: t ∧ isWs h1 = false) ∧
    (∃ c, (clean_text l).getLast? = some c ∧ isWs c = false) := by
  have hex : wordsOf l ≠ [] := by
    intro hword
    apply h
    show joinWords (wordsOf l) = []
    rw [hword]
    rfl
  have hprops := @wordsAux_mem l [] (by intro x hx; cases hx)
  exact ⟨joinWords_head hex hprops, joinWords_getLast hex hprops⟩

theorem clean_text_ne_nil {l : Str} (h : ∃ c ∈ l, isWs c = false) : clean_text l ≠ [] := by
  intro hnil
  rw [clean_text_eq_nil_iff] at hnil
  rcases h with ⟨c, hc, hf⟩
  have := hnil c hc
  rw [this] at hf
  cases hf

theorem trim_clean_text_ne_nil {l : Str} (h : clean_text l ≠ []) :
    trim (clean_text l) ≠ [] := by
  obtain ⟨⟨h1, t, hj, hwf⟩, -⟩ := clean_text_props h
  rw [trim_ne_nil_iff]
  exact ⟨h1, by rw [hj]; simp, hwf⟩

/-! ## Lemmas about substring search -/

theorem matchAt_le_length {t d : Str} {i : Nat} (hd : d ≠ []) (h : matchAt t d i = true) :
    i + d.length ≤ t.length := by
  have he : (t.drop i).take d.length = d := by simpa [matchAt] using h
  have hlen : ((t.drop i).take d.length).length = d.length := by rw [he]
  rw [List.length_take, List.length_drop] at hlen
  have hdpos : 0 < d.length := List.length_pos.mpr hd
  omega

theorem py_find_eq_none {s d : Str} {i0 : Nat} (hd : d ≠ []) :
    py_find s d i0 = none ↔ ∀ i, ¬(i0 ≤ i ∧ matchAt s d i = true) := by
  rw [py_find, List.head?_eq_none_iff, List.filter_eq_nil_iff]
  constructor
  · intro h i hc
    obtain ⟨hi0, hm⟩ := hc
    have hmem : i ∈ List.range (s.length + 1) := by
      have := matchAt_le_length hd hm
      have hdpos : 0 < d.length := List.length_pos.mpr hd
      exact List.mem_range.mpr (by omega)
    have h2 := h i hmem
    apply h2
    simp [hi0, hm]
  · intro h i hmem
    simp only [Bool.and_eq_true, decide_eq_true_eq, not_and]
    intro hi0 hm
    exact h i ⟨hi0, hm⟩

theorem py_rfind_eq_none {s d : Str} {j : Nat} :
    py_rfind s d j = none ↔ ∀ i, ¬(i + d.length ≤ j ∧ matchAt s d i = true) := by
  rw [py_rfind, List.getLast?_eq_none_iff, List.filter_eq_nil_iff]
  constructor
  · intro h i hc
    obtain ⟨hij, hm⟩ := hc
    have hmem : i ∈ List.range (j + 1) := List.mem_range.mpr (by omega)
    have h2 := h i hmem
    apply h2
    simp [hij, hm]
  · intro h i hmem
    simp only [Bool.and_eq_true, decide_eq_true_eq, not_and]
    intro hij hm
    exact h i ⟨hij, hm⟩

theorem py_find_eq_some {s d : Str} {i0 pos : Nat} (h : py_find s d i0 = some pos) :
    i0 ≤ pos ∧ matchAt s d pos = true := by
  rw [py_find] at h
  have hmem := List.mem_of_mem_head? h
  have := (List.mem_filter.mp hmem).2
  simpa using this

theorem py_rfind_eq_some {s d : Str} {j pos : Nat} (h : py_rfind s d j = some pos) :
    pos + d.length ≤ j ∧ matchAt s d pos = true := by
  rw [py_rfind] at h
  have hmem := List.mem_of_mem_getLast? h
  have := (List.mem_filter.mp hmem).2
  simpa using this

theorem matchAt_dotnn_imp {t : Str} {i : Nat}
    (h : matchAt t (".\n\n".data) i = true) : matchAt t (".\n".data) i = true := by
  simp only [matchAt, decide_eq_true_eq] at h ⊢
  have hlen2 : (".\n".data).length = 2 := rfl
  have hlen3 : (".\n\n".data).length = 3 := rfl
  rw [hlen3] at h
  rw [hlen2]
  have htt := List.take_take 2 3 (t.drop i)
  rw [show min 2 3 = 2 from rfl] at htt
  rw [← htt, h]
  rfl

theorem try_delim_dotnn_none {st : Str} {start pref : Nat}
    (h : try_delim st start pref (".\n".data) = none) :
    try_delim st start pref (".\n\n".data) = none := by
  rw [try_delim] at h ⊢
  cases hr : py_rfind st (".\n".data) pref with
  | some pos => rw [hr] at h; cases h
  | none =>
    rw [hr] at h
    cases hf : py_find st (".\n".data) pref with
    | some pos => rw [hf] at h; cases h
    | none =>
      have hr3 : py_rfind st (".\n\n".data) pref = none := by
        rw [py_rfind_eq_none]
        intro i hc
        obtain ⟨hij, hm⟩ := hc
        have hm2 := matchAt_dotnn_imp hm
        refine py_rfind_eq_none.mp hr i ⟨?_, hm2⟩
        have hlen2 : (".\n".data).length = 2 := rfl
        have hlen3 : (".\n\n".data).length = 3 := rfl
        omega
      have hf3 : py_find st (".\n\n".data) pref = none := by
        rw [py_find_eq_none (by decide)]
        intro i hc
        obtain ⟨hi0, hm⟩ := hc
        exact py_find_eq_none (by decide) |>.mp hf i ⟨hi0, matchAt_dotnn_imp hm⟩
      rw [hr3, hf3]

/-! ## Lemmas about the stable descending sort -/

theorem insert_desc_perm (x : RDoc) (l : List RDoc) : (insert_desc x l).Perm (x :: l) := by
  induction l with
  | nil => exact List.Perm.refl _
  | cons y ys ih =>
    by_cases h : eff_score y ≤ eff_score x
    · simp only [insert_desc, if_pos h]
      exact List.Perm.refl _
    · simp only [insert_desc, if_neg h]
      exact (ih.cons y).trans (List.Perm.swap x y ys)

theorem mem_insert_desc {z x : RDoc} {l : List RDoc} :
    z ∈ insert_desc x l ↔ z = x ∨ z ∈ l := by
  rw [(insert_desc_perm x l).mem_iff, List.mem_cons]

theorem sort_desc_perm (l : List RDoc) : (sort_desc l).Perm l := by
  induction l with
  | nil => exact List.Perm.refl _
  | cons x xs ih => exact (insert_desc_perm x (sort_desc xs)).trans (ih.cons x)

theorem insert_desc_pairwise {x : RDoc} {l : List RDoc}
    (h : l.Pairwise (fun a b => eff_score b ≤ eff_score a)) :
    (insert_desc x l).Pairwise (fun a b => eff_score b ≤ eff_score a) := by
  induction l with
  | nil => simp [insert_desc]
  | cons y ys ih =>
    rcases List.pairwise_cons.mp h with ⟨hy, hys⟩
    by_cases hxy : eff_score y ≤ eff_score x
    · simp only [insert_desc, if_pos hxy]
      refine List.pairwise_cons.mpr ⟨?_, h⟩
      intro z hz
      rcases List.mem_cons.mp hz with rfl | hz'
      · exact hxy
      · exact le_trans (hy z hz') hxy
    · simp only [insert_desc, if_neg hxy]
      refine List.pairwise_cons.mpr ⟨?_, ih hys⟩
      intro z hz
      rcases mem_insert_desc.mp hz with rfl | hz'
      · exact le_of_lt (lt_of_not_le hxy)
      · exact hy z hz'

theorem sort_desc_pairwise (l : List RDoc) :
    (sort_desc l).Pairwise (fun a b => eff_score b ≤ eff_score a) := by
  induction l with
  | nil => exact List.Pairwise.nil
  | cons x xs ih => exact insert_desc_pairwise ih

theorem insert_desc_filter (x : RDoc) (l : List RDoc) (s : Int) :
    (insert_desc x l).filter (fun d => decide (eff_score d = s)) =
      if eff_score x = s then x :: l.filter (fun d => decide (eff_score d = s))
      else l.filter (fun d => decide (eff_score d = s)) := by
  induction l with
  | nil =>
    by_cases hx : eff_score x = s <;> simp [insert_desc, hx]
  | cons y ys ih =>
    by_cases hxy : eff_score y ≤ eff_score x
    · simp only [insert_desc, if_pos hxy]
      by_cases hx : eff_score x = s <;> simp [List.filter_cons, hx]
    · simp only [insert_desc, if_neg hxy]
      by_cases hy : eff_score y = s
      · have hx : ¬ eff_score x = s := by
          intro hxs
          exact hxy (by rw [hxs, hy])
        simp [List.filter_cons, hy, hx, ih]
      · by_cases hx : eff_score x = s <;>
          simp [List.filter_cons, hy, hx, ih]

theorem sort_desc_filter (l : List RDoc) (s : Int) :
    (sort_desc l).filter (fun d => decide (eff_score d = s)) =
      l.filter (fun d => decide (eff_score d = s)) := by
  induction l with
  | nil => rfl
  | cons x xs ih =>
    show (insert_desc x (sort_desc xs)).filter _ = _
    rw [insert_desc_filter]
    by_cases hx : eff_score x = s <;> simp [hx, List.filter_cons, ih]

/-! ## Claim C4: the four-segment example scenario -/

/-- C4: on the four segments ("Good",0,500), ("morning",500,1100),
("everyone",1100,1900), ("today",1900,2600) with max_words=2,
max_duration_ms=2000, overlap_ms=400, the chunker returns exactly four chunks:
"Good morning" (0-1100), "morning everyone" (500-1900), "everyone today"
(1100-2600), and the final flush "today" (1900-2600). -/
theorem transcript_example_four_chunks :
    (tchunk ex_cfg ex_doc).length = 4 ∧
    (tchunk ex_cfg ex_doc).map (fun c => (c.start_ms, c.end_ms)) =
      [(some 0, some 1100), (some 500, some 1900),
       (some 1100, some 2600), (some 1900, some 2600)] ∧
    List.zipWith has_sub ((tchunk ex_cfg ex_doc).map (fun c => c.content))
      ["Good morning".data, "morning everyone".data,
       "everyone today".data, "today".data] = [true, true, true, true] := by decide

/-! ## Claim C10: termination of the fallback word-group loop -/

theorem cursor_after_eq (w : Int) (n : Nat) : cursor_after w n = n * w := by
  induction n with
  | zero => simp [cursor_after]
  | succ n ih =>
    show cursor_after w n + w = ((n + 1 : Nat) : Int) * w
    rw [ih]
    push_cast
    ring

theorem fallback_loop_succ (doc : TDocument) (max_words : Int) (words : List Str)
    (fuel : Nat) (cursor : Int) (acc : List TChunk) :
    fallback_loop doc max_words words (fuel + 1) cursor acc =
      if cursor < (words.length : Int) then
        if py_slice words cursor (cursor + max_words) = [] then
          fallback_loop doc max_words words fuel (cursor + max_words) acc
        else
          fallback_loop doc max_words words fuel (cursor + max_words)
            (acc ++ [mk_fallback_chunk doc acc.length
              (py_slice words cursor (cursor + max_words))])
      else acc := rfl

theorem fallback_loop_fuel {doc : TDocument} {max_words : Int} {words : List Str}
    (hw : 1 ≤ max_words) :
    ∀ (fuel : Nat) (cursor : Int) (acc : List TChunk),
      (words.length : Int) ≤ cursor + fuel * max_words →
      fallback_loop doc max_words words (fuel + 1) cursor acc =
        fallback_loop doc max_words words fuel cursor acc := by
  intro fuel
  induction fuel with
  | zero =>
    intro cursor acc hb
    have hguard : ¬ cursor < (words.length : Int) := by
      simp at hb
      omega
    rw [fallback_loop_succ, if_neg hguard]
    rfl
  | succ fuel ih =>
    intro cursor acc hb
    show fallback_loop doc max_words words (fuel + 1 + 1) cursor acc =
      fallback_loop doc max_words words (fuel + 1) cursor acc
    rw [fallback_loop_succ doc max_words words (fuel + 1) cursor acc,
        fallback_loop_succ doc max_words words fuel cursor acc]
    by_cases hguard : cursor < (words.length : Int)
    · rw [if_pos hguard, if_pos hguard]
      have hb2 : (words.length : Int) ≤ (cursor + max_words) + fuel * max_words := by
        have hc : ((fuel + 1 : Nat) : Int) * max_words = fuel * max_words + max_words := by
          push_cast
          ring
        rw [hc] at hb
        omega
      by_cases hcw : py_slice words cursor (cursor + max_words) = []
      · rw [if_pos hcw, if_pos hcw]
        exact ih (cursor + max_words) acc hb2
      · rw [if_neg hcw, if_neg hcw]
        exact ih (cursor + max_words) _ hb2
    · rw [if_neg hguard, if_neg hguard]

theorem fallback_loop_fuel_ge {doc : TDocument} {max_words : Int} {words : List Str}
    (hw : 1 ≤ max_words) :
    ∀ (extra fuel : Nat) (cursor : Int) (acc : List TChunk),
      (words.length : Int) ≤ cursor + fuel * max_words →
      fallback_loop doc max_words words (fuel + extra) cursor acc =
        fallback_loop doc max_words words fuel cursor acc := by
  intro extra
  induction extra with
  | zero => intro fuel cursor acc _; rfl
  | succ extra ih =>
    intro fuel cursor acc hb
    have h1 : fuel + (extra + 1) = (fuel + extra) + 1 := by omega
    rw [h1]
    have hb2 : (words.length : Int) ≤ cursor + ((fuel + extra : Nat) : Int) * max_words := by
      have hmono : ((fuel : Nat) : Int) * max_words ≤ ((fuel + extra : Nat) : Int) * max_words := by
        have hle : ((fuel : Nat) : Int) ≤ ((fuel + extra : Nat) : Int) := by
          exact_mod_cast Nat.le_add_right fuel extra
        exact mul_le_mul_of_nonneg_right hle (by omega)
      omega
    rw [fallback_loop_fuel hw (fuel + extra) cursor acc hb2]
    exact ih fuel cursor acc hb

/-- C10: with max_words ≥ 1 the fallback word-group loop, which advances its
cursor by max_words per iteration, passes the length of any word list within
finitely many iterations (so words.length + 1 fuel is already enough and the
chunker terminates on every input); with max_words ≤ 0 and a non-empty word
list, the cursor stays below the loop bound forever, so the loop is not
total. -/
theorem fallback_termination (max_words : Int) (len : Nat) :
    (1 ≤ max_words → ∃ n : Nat, (len : Int) ≤ cursor_after max_words n)
    ∧ (max_words ≤ 0 → 0 < len → ∀ n : Nat, cursor_after max_words n < (len : Int))
    ∧ (1 ≤ max_words →
        ∀ (doc : TDocument) (words : List Str) (extra : Nat) (acc : List TChunk),
          fallback_loop doc max_words words (words.length + 1 + extra) 0 acc =
            fallback_loop doc max_words words (words.length + 1) 0 acc) := by
  refine ⟨?_, ?_, ?_⟩
  · intro hw
    refine ⟨len, ?_⟩
    rw [cursor_after_eq]
    calc (len : Int) = len * 1 := by ring
      _ ≤ len * max_words := by
          exact mul_le_mul_of_nonneg_left hw (by positivity)
  · intro hw hlen n
    rw [cursor_after_eq]
    have h1 : (n : Int) * max_words ≤ 0 :=
      mul_nonpos_iff.mpr (Or.inl ⟨Int.natCast_nonneg n, hw⟩)
    omega
  · intro hw doc words extra acc
    have hb : (words.length : Int) ≤ 0 + (words.length + 1) * max_words := by
      have h1 : ((words.length + 1 : Nat) : Int) * 1 ≤ ((words.length + 1 : Nat) : Int) * max_words :=
        mul_le_mul_of_nonneg_left hw (by positivity)
      push_cast at h1 ⊢
      omega
    have := @fallback_loop_fuel_ge doc max_words words hw extra (words.length + 1) 0 acc hb
    rw [show words.length + 1 + extra = (words.length + 1) + extra from rfl]
    exact this

/-- Witness for the termination theorem at max_words = 2, len = 5 and the
divergence statement at max_words = 0, len = 3. -/
theorem fallback_termination_witness :
    (∃ n : Nat, (5 : Int) ≤ cursor_after 2 n) ∧
    (∀ n : Nat, cursor_after 0 n < (3 : Int)) :=
  ⟨(fallback_termination 2 5).1 (by decide),
   fun n => (fallback_termination 0 3).2.1 (by decide) (by decide) n⟩

/-! ## Claim C9: empty content versus missing mandatory keys -/

/-- C9: the slide chunker returns the empty list (without raising) on a
document whose cleaned content is empty, whereas chunk_slide_descriptions
raises a KeyError on a description record lacking the page_number key rather
than silently dropping it. -/
theorem chunker_error_handling :
    (∀ (doc : SDoc) (mc : Int), clean_text doc.content = [] → slide_chunk mc doc = [])
    ∧ chunk_slide_descriptions [bad_desc] "doc1" 2000 =
        Except.error "KeyError: page_number" := by
  constructor
  · intro doc mc h
    simp [slide_chunk, h]
  · rfl

/-- Witness: a whitespace-only slide document yields the empty chunk list. -/
theorem chunker_error_handling_witness : slide_chunk 2000 ws_doc = [] :=
  chunker_error_handling.1 ws_doc 2000 (by decide)

/-! ## Claim C2: flush readiness in the segmented path -/

/-- C2: in the segmented path a chunk is flushed exactly when, after appending
a non-empty segment, the buffer length reached max_words or the known-endpoint
duration reached max_duration_ms; empty segments change nothing and unknown
endpoint timestamps never trigger the duration condition. -/
theorem transcript_flush_readiness (cfg : TCfg) (doc : TDocument) (st : TState)
    (item : TSegment) :
    (trim item.text = [] → append_step cfg doc st item = st)
    ∧ (trim item.text ≠ [] →
        ((append_step cfg doc st item).chunks.length = st.chunks.length + 1 ↔
          chunk_ready cfg (st.buffer ++ [buffer_entry item]) = true)
        ∧ (chunk_ready cfg (st.buffer ++ [buffer_entry item]) = false →
            (append_step cfg doc st item).chunks = st.chunks ∧
            (append_step cfg doc st item).buffer = st.buffer ++ [buffer_entry item]))
    ∧ (∀ buffer : List TSegment, buffer ≠ [] →
        (chunk_ready cfg buffer = true ↔
          (cfg.max_words ≤ (buffer.length : Int) ∨
            ∃ s e, buffer.head?.bind TSegment.start_ms = some s ∧
                   buffer.getLast?.bind TSegment.end_ms = some e ∧
                   cfg.max_duration_ms ≤ e - s))) := by
  refine ⟨?_, ?_, ?_⟩
  · intro h
    simp [append_step, h]
  · intro h
    constructor
    · cases hr : chunk_ready cfg (st.buffer ++ [buffer_entry item]) with
      | true => simp [append_step, h, hr]
      | false => simp [append_step, h, hr]
    · intro hr
      simp [append_step, h, hr]
  · intro buffer hb
    rw [chunk_ready]
    rw [if_neg (by simpa using hb)]
    by_cases hmw : cfg.max_words ≤ (buffer.length : Int)
    · simp [hmw]
    · rw [if_neg hmw]
      obtain ⟨f, tl, rfl⟩ : ∃ f tl, buffer = f :: tl := by
        cases buffer with
        | nil => exact absurd rfl hb
        | cons f tl => exact ⟨f, tl, rfl⟩
      cases hgl : (f :: tl).getLast? with
      | none => exact absurd (List.getLast?_eq_none_iff.mp hgl) (by simp)
      | some lst =>
        simp only [List.head?_cons, hgl]
        have hbind1 : (some f).bind TSegment.start_ms = f.start_ms := rfl
        have hbind2 : (some lst).bind TSegment.end_ms = lst.end_ms := rfl
        rw [hbind1, hbind2]
        cases hs : f.start_ms with
        | none =>
          cases he : lst.end_ms with
          | none =>
            simp only [hs, he]
            constructor
            · intro h
              cases h
            · rintro (h | ⟨s, e, hse, -, -⟩)
              · exact absurd h hmw
              · cases hse
          | some e =>
            simp only [hs, he]
            constructor
            · intro h
              cases h
            · rintro (h | ⟨s, e2, hse, -, -⟩)
              · exact absurd h hmw
              · cases hse
        | some s =>
          cases he : lst.end_ms with
          | none =>
            simp only [hs, he]
            constructor
            · intro h
              cases h
            · rintro (h | ⟨s2, e2, -, hee, -⟩)
              · exact absurd h hmw
              · cases hee
          | some e =>
            simp only [hs, he]
            constructor
            · intro h
              refine Or.inr ⟨s, e, rfl, rfl, ?_⟩
              simpa using h
            · rintro (h | ⟨s2, e2, hs2, he2, hd⟩)
              · exact absurd h hmw
              · have h1 : s = s2 := by injection hs2
                have h2 : e = e2 := by injection he2
                subst h1
                subst h2
                simpa using hd

/-- Witness: the readiness characterisation applied to the concrete
two-segment buffer of the example (ready because its length reaches
max_words = 2). -/
theorem transcript_flush_readiness_witness :
    chunk_ready ex_cfg w_buf = true ↔
      (ex_cfg.max_words ≤ (w_buf.length : Int) ∨
        ∃ s e, w_buf.head?.bind TSegment.start_ms = some s ∧
               w_buf.getLast?.bind TSegment.end_ms = some e ∧
               ex_cfg.max_duration_ms ≤ e - s) :=
  (transcript_flush_readiness ex_cfg ex_doc { chunks := [], buffer := [] }
    { text := [], start_ms := none, end_ms := none }).2.2 w_buf (by decide)

/-! ## Claim C3: the overlap tail -/

/-- C3: after a flush the next buffer is exactly the overlap tail: empty when
overlap_ms ≤ 0 or the last end_ms is unknown, and otherwise exactly the
buffered segments whose end_ms (unknown as 0) is at least last end_ms minus
overlap_ms; every retained segment (in particular the first segment of the
next chunk) satisfies that bound, and the tail is never empty in that case. -/
theorem transcript_overlap_tail_spec (cfg : TCfg) (buffer : List TSegment) :
    (cfg.overlap_ms ≤ 0 → overlap_tail cfg buffer = [])
    ∧ (buffer.getLast?.bind TSegment.end_ms = none → overlap_tail cfg buffer = [])
    ∧ (∀ e : Int, 0 < cfg.overlap_ms → buffer.getLast?.bind TSegment.end_ms = some e →
        overlap_tail cfg buffer =
          buffer.filter (fun x => decide (e - cfg.overlap_ms ≤ x.end_ms.getD 0))
        ∧ (∀ x ∈ overlap_tail cfg buffer, e - cfg.overlap_ms ≤ x.end_ms.getD 0)
        ∧ overlap_tail cfg buffer ≠ [])
    ∧ (∀ (doc : TDocument) (st : TState) (item : TSegment),
        trim item.text ≠ [] →
        chunk_ready cfg (st.buffer ++ [buffer_entry item]) = true →
        (append_step cfg doc st item).buffer =
          overlap_tail cfg (st.buffer ++ [buffer_entry item])) := by
  refine ⟨?_, ?_, ?_, ?_⟩
  · intro h
    rw [overlap_tail, if_pos (Or.inr h)]
  · intro h
    rw [overlap_tail]
    by_cases hb : buffer.isEmpty = true ∨ cfg.overlap_ms ≤ 0
    · rw [if_pos hb]
    · rw [if_neg hb, h]
  · intro e hpos hsome
    obtain ⟨lst, hlst, hlste⟩ : ∃ lst, buffer.getLast? = some lst ∧ lst.end_ms = some e := by
      cases hgl : buffer.getLast? with
      | none => rw [hgl] at hsome; cases hsome
      | some lst =>
        rw [hgl] at hsome
        exact ⟨lst, rfl, hsome⟩
    have hbe : buffer ≠ [] := by
      intro hnil
      rw [hnil] at hlst
      cases hlst
    have hne : ¬(buffer.isEmpty = true ∨ cfg.overlap_ms ≤ 0) := by
      push_neg
      exact ⟨by simpa using hbe, by omega⟩
    have heq : overlap_tail cfg buffer =
        buffer.filter (fun x => decide (e - cfg.overlap_ms ≤ x.end_ms.getD 0)) := by
      rw [overlap_tail, if_neg hne, hsome]
    refine ⟨heq, ?_, ?_⟩
    · intro x hx
      rw [heq] at hx
      have := (List.mem_filter.mp hx).2
      simpa using this
    · rw [heq]
      intro hnil
      have hmem : lst ∈ buffer := List.mem_of_mem_getLast? hlst
      have hin : lst ∈ buffer.filter (fun x => decide (e - cfg.overlap_ms ≤ x.end_ms.getD 0)) := by
        refine List.mem_filter.mpr ⟨hmem, ?_⟩
        simp [hlste]
        omega
      rw [hnil] at hin
      cases hin
  · intro doc st item ht hr
    simp [append_step, ht, hr]

/-- Witness: the overlap-tail characterisation at the example buffer with
overlap_ms = 400 and last end_ms = 1100: only the last segment survives. -/
theorem transcript_overlap_tail_spec_witness :
    overlap_tail ex_cfg w_buf =
      w_buf.filter (fun x => decide ((1100 : Int) - ex_cfg.overlap_ms ≤ x.end_ms.getD 0))
    ∧ (∀ x ∈ overlap_tail ex_cfg w_buf,
        (1100 : Int) - ex_cfg.overlap_ms ≤ x.end_ms.getD 0)
    ∧ overlap_tail ex_cfg w_buf ≠ [] :=
  (transcript_overlap_tail_spec ex_cfg w_buf).2.2.1 1100 (by decide) (by decide)

/-! ## Claim C1: the retrieval fanout -/

/-- C1, amended: for every opaque per-collection search and every supplied cap
N ≥ 1 the combined retriever returns exactly the lectures-then-slides
concatenation (each result's metadata labelled with its knowledge_source only
when absent), stably sorted by effective score descending (missing or falsy
score as 0) and truncated to the first N entries; the stable sort is a
permutation, is sorted descending, preserves fetch order inside every equal
score class (lectures results before slides results), and truncation yields
exactly N entries whenever more than N were merged.  (The unamended claim
fails at N = 0: Python's "if num_documents:" treats 0 as falsy and skips
truncation, see the counterexample.) -/
theorem retrieval_fanout_spec (search : String → List RDoc) (n : Nat) (hn : 1 ≤ n) :
    knowledge_retriever search (some n) Scope.combined =
      (sort_desc (merged_docs search)).take n
    ∧ knowledge_retriever search none Scope.combined = sort_desc (merged_docs search)
    ∧ (sort_desc (merged_docs search)).Perm (merged_docs search)
    ∧ (sort_desc (merged_docs search)).Pairwise (fun a b => eff_score b ≤ eff_score a)
    ∧ (∀ s : Int,
        (sort_desc (merged_docs search)).filter (fun d => decide (eff_score d = s)) =
          ((search "lectures").map (label_doc "lectures")).filter
              (fun d => decide (eff_score d = s)) ++
            ((search "slides").map (label_doc "slides")).filter
              (fun d => decide (eff_score d = s)))
    ∧ (n < (merged_docs search).length →
        (knowledge_retriever search (some n) Scope.combined).length = n)
    ∧ knowledge_retriever search (some n) Scope.lectures =
        (sort_desc ((search "lectures").map (label_doc "lectures"))).take n
    ∧ knowledge_retriever search (some n) Scope.slides =
        (sort_desc ((search "slides").map (label_doc "slides"))).take n := by
  have hfold : (select_sources Scope.combined).foldl
      (fun acc label => acc ++ (search label).map (label_doc label)) [] =
      merged_docs search := by
    simp [select_sources, merged_docs]
  have hn0 : n ≠ 0 := by omega
  refine ⟨?_, ?_, sort_desc_perm _, sort_desc_pairwise _, ?_, ?_, ?_, ?_⟩
  · simp [knowledge_retriever, hfold, hn0]
  · simp [knowledge_retriever, hfold]
  · intro s
    rw [sort_desc_filter, merged_docs, List.filter_append]
  · intro hlen
    have hlen2 : (sort_desc (merged_docs search)).length = (merged_docs search).length :=
      (sort_desc_perm (merged_docs search)).length_eq
    simp [knowledge_retriever, hfold, hn0, List.length_take, hlen2]
    omega
  · simp [knowledge_retriever, select_sources, hn0]
  · simp [knowledge_retriever, select_sources, hn0]

/-- Counterexample to C1 as stated: with num_documents = 0 supplied and two
merged results, the code returns both results instead of the first 0 of them,
because "if num_documents:" is false for 0. -/
theorem retrieval_fanout_zero_cap_cx :
    0 < (merged_docs ex_search).length ∧
    (knowledge_retriever ex_search (some 0) Scope.combined).length = 2 := by decide

/-- Witness for the amended fanout theorem at the concrete search and N = 1. -/
theorem retrieval_fanout_spec_witness :
    knowledge_retriever ex_search (some 1) Scope.combined =
      (sort_desc (merged_docs ex_search)).take 1 :=
  (retrieval_fanout_spec ex_search 1 (by decide)).1

/-! ## Counterexamples for claims C5 and C6 -/

/-- Counterexample to C5 as stated over every input: a segment with
end_ms < start_ms yields a chunk with start_ms > end_ms, and unsorted
segments yield decreasing chunk start_ms values. -/
theorem transcript_monotonic_cx :
    ((tchunk ex_cfg c5_doc1).map (fun c => (c.start_ms, c.end_ms)) =
        [(some 10, some 0)] ∧ ¬((10 : Int) ≤ 0))
    ∧ ((tchunk c5_cfg c5_doc2).map (fun c => c.start_ms) =
        [some 100, some 0] ∧ ¬((100 : Int) ≤ 0)) := by decide

/-- Counterexample to C6 as stated for every budget: with max_chars = 0 and
the one-character slide "a" (cleaned length 1 > 0), the split point is 0, the
first half is empty and only one chunk is emitted instead of exactly two. -/
theorem slide_split_bound_cx :
    clean_text c6_doc.content ≠ [] ∧
    (0 : Int) < ((clean_text c6_doc.content).length : Int) ∧
    (slide_chunk 0 c6_doc).length = 1 := by decide

/-! ## Claim C7: the duplicate delimiter tokens are redundant -/

theorem findSome_dedup (st : Str) (start pref : Nat) :
    List.findSome? (try_delim st start pref) delims_src =
      List.findSome? (try_delim st start pref) delims_dedup := by
  cases h1 : try_delim st start pref (".\n".data) with
  | some p => simp only [delims_src, delims_dedup, List.findSome?_cons, h1]
  | none =>
    have h2 := try_delim_dotnn_none h1
    simp only [delims_src, delims_dedup, List.findSome?_cons, h1, h2]

/-- C7: the split-point search over the literal delimiter list of
_find_split_point (with its duplicated period-newline entry and the
period-two-newlines entry) returns the same split point as the identical
procedure over the deduplicated sequence ".\n", "!\n", "?\n", "! ", "? ",
". " for every text and preferred point: any period-two-newlines hit is also
a period-newline hit at the same position, and the first period-newline probe
of the list already decides the duplicate. -/
theorem slide_delimiter_dedup_equiv (text : Str) (preferred : Nat) :
    find_split_point_with delims_src text preferred =
      find_split_point_with delims_dedup text preferred := by
  simp only [find_split_point_with]
  rw [findSome_dedup]

/-! ## Claim C8: every emitted chunk has non-empty trimmed content -/

theorem overlap_tail_sublist (cfg : TCfg) (b : List TSegment) :
    (overlap_tail cfg b).Sublist b := by
  rw [overlap_tail]
  by_cases h : b.isEmpty = true ∨ cfg.overlap_ms ≤ 0
  · rw [if_pos h]
    exact List.nil_sublist b
  · rw [if_neg h]
    cases hgl : b.getLast?.bind TSegment.end_ms with
    | none => exact List.nil_sublist b
    | some e => exact List.filter_sublist b

theorem flush_content_ne (doc : TDocument) (buffer : List TSegment) (idx : Nat)
    (hb : ∃ x ∈ buffer, has_text x) :
    trim (flush_chunk doc buffer idx).content ≠ [] := by
  obtain ⟨x, hx, c, hc, hcw⟩ := hb
  have hj : c ∈ joinWords (buffer.map TSegment.text) :=
    mem_joinWords hc (List.mem_map_of_mem TSegment.text hx)
  have hcl : clean_text (joinWords (buffer.map TSegment.text)) ≠ [] :=
    clean_text_ne_nil ⟨c, hj, hcw⟩
  show trim (clean_text (joinWords (buffer.map TSegment.text))) ≠ []
  exact trim_clean_text_ne_nil hcl

theorem cinv_step (cfg : TCfg) (doc : TDocument) (st : TState) (item : TSegment)
    (h : CInv st) : CInv (append_step cfg doc st item) := by
  simp only [append_step]
  by_cases ht : trim item.text = []
  · rw [if_pos ht]
    exact h
  · rw [if_neg ht]
    have hent : has_text (buffer_entry item) := by
      obtain ⟨c, hc, hcw⟩ := trim_ne_nil_iff.mp ht
      exact ⟨c, mem_trim hc hcw, hcw⟩
    have hbuf : ∀ x ∈ st.buffer ++ [buffer_entry item], has_text x := by
      intro x hx
      rcases List.mem_append.mp hx with h1 | h2
      · exact h.1 x h1
      · rw [List.mem_singleton.mp h2]
        exact hent
    by_cases hr : chunk_ready cfg (st.buffer ++ [buffer_entry item]) = true
    · rw [if_pos hr]
      refine ⟨?_, ?_⟩
      · intro x hx
        exact hbuf x ((overlap_tail_sublist cfg _).mem hx)
      · intro c hc
        rcases List.mem_append.mp hc with h1 | h2
        · exact h.2 c h1
        · rw [List.mem_singleton.mp h2]
          apply flush_content_ne
          exact ⟨buffer_entry item, by simp, hent⟩
    · rw [if_neg hr]
      exact ⟨hbuf, h.2⟩

theorem cinv_fold (cfg : TCfg) (doc : TDocument) :
    ∀ (segs : List TSegment) (st : TState), CInv st →
      CInv (List.foldl (append_step cfg doc) st segs) := by
  intro segs
  induction segs with
  | nil => intro st h; exact h
  | cons i is ih =>
    intro st h
    exact ih _ (cinv_step cfg doc st i h)

theorem py_slice_sublist (l : List α) (a b : Int) : (py_slice l a b).Sublist l := by
  rw [py_slice]
  exact (List.drop_sublist _ _).trans (List.take_sublist _ _)

theorem fallback_loop_nonempty (doc : TDocument) (mw : Int) (words : List Str)
    (hwords : ∀ w ∈ words, w ≠ [] ∧ ∀ c ∈ w, isWs c = false) :
    ∀ (fuel : Nat) (cursor : Int) (acc : List TChunk),
      (∀ c ∈ acc, trim c.content ≠ []) →
      ∀ c ∈ fallback_loop doc mw words fuel cursor acc, trim c.content ≠ [] := by
  intro fuel
  induction fuel with
  | zero =>
    intro cursor acc hacc c hc
    exact hacc c hc
  | succ fuel ih =>
    intro cursor acc hacc c hc
    rw [fallback_loop_succ] at hc
    by_cases hguard : cursor < (words.length : Int)
    · rw [if_pos hguard] at hc
      by_cases hcw : py_slice words cursor (cursor + mw) = []
      · rw [if_pos hcw] at hc
        exact ih _ _ hacc c hc
      · rw [if_neg hcw] at hc
        refine ih _ _ ?_ c hc
        intro c2 hc2
        rcases List.mem_append.mp hc2 with h1 | h2
        · exact hacc c2 h1
        · rw [List.mem_singleton.mp h2]
          obtain ⟨w0, rest, hcw0⟩ : ∃ w0 rest,
              py_slice words cursor (cursor + mw) = w0 :: rest := by
            cases hpy : py_slice words cursor (cursor + mw) with
            | nil => exact absurd hpy hcw
            | cons w0 rest => exact ⟨w0, rest, rfl⟩
          have hw0 : w0 ∈ words :=
            (py_slice_sublist words cursor (cursor + mw)).mem (by rw [hcw0]; simp)
          obtain ⟨hw0ne, hw0ch⟩ := hwords w0 hw0
          obtain ⟨ch, hch⟩ : ∃ ch, ch ∈ w0 := by
            cases w0 with
            | nil => exact absurd rfl hw0ne
            | cons a t => exact ⟨a, by simp⟩
          show trim (joinWords (py_slice words cursor (cursor + mw))) ≠ []
          rw [trim_ne_nil_iff]
          exact ⟨ch, mem_joinWords hch (by rw [hcw0]; simp), hw0ch ch hch⟩
    · rw [if_neg hguard] at hc
      exact hacc c hc

set_option maxRecDepth 4096 in
set_option maxHeartbeats 2000000 in
theorem slide_chunk_nonempty (mc : Int) (doc : SDoc) :
    ∀ c ∈ slide_chunk mc doc, trim c.content ≠ [] := by
  intro c hc
  simp only [slide_chunk] at hc
  by_cases hemp : (clean_text doc.content).isEmpty = true
  · rw [if_pos hemp] at hc
    cases hc
  · rw [if_neg hemp] at hc
    have hcne : clean_text doc.content ≠ [] := by simpa using hemp
    obtain ⟨⟨h1, t1, hj, h1w⟩, hlast⟩ := clean_text_props hcne
    by_cases hfit : ((clean_text doc.content).length : Int) ≤ mc
    · rw [if_pos hfit] at hc
      have hc' := List.mem_singleton.mp hc
      rw [hc']
      exact trim_clean_text_ne_nil hcne
    · rw [if_neg hfit] at hc
      set p := find_split_point (clean_text doc.content)
        ((clean_text doc.content).length / 2) with hp
      set c1 := trim ((clean_text doc.content).take p) with hc1def
      set c2 := trim ((clean_text doc.content).drop p) with hc2def
      have htrim1 : c1 ≠ [] → trim c1 ≠ [] := by
        intro h1ne
        rw [hc1def] at h1ne ⊢
        rw [trim_ne_nil_iff]
        obtain ⟨ch, hch, hchw⟩ := trim_ne_nil_iff.mp h1ne
        exact ⟨ch, mem_trim hch hchw, hchw⟩
      have htrim2 : c2 ≠ [] → trim c2 ≠ [] := by
        intro h2ne
        rw [hc2def] at h2ne ⊢
        rw [trim_ne_nil_iff]
        obtain ⟨ch, hch, hchw⟩ := trim_ne_nil_iff.mp h2ne
        exact ⟨ch, mem_trim hch hchw, hchw⟩
      by_cases h1e : c1.isEmpty = true
      · have he1 : c1 = [] := by simpa using h1e
        by_cases h2e : c2.isEmpty = true
        · exfalso
          have he2 : c2 = [] := by simpa using h2e
          have hall1 : ∀ x ∈ (clean_text doc.content).take p, isWs x = true := by
            rw [hc1def] at he1
            exact trim_eq_nil_iff.mp he1
          have hall2 : ∀ x ∈ (clean_text doc.content).drop p, isWs x = true := by
            rw [hc2def] at he2
            exact trim_eq_nil_iff.mp he2
          have hh1 : h1 ∈ (clean_text doc.content).take p ++ (clean_text doc.content).drop p := by
            rw [List.take_append_drop p]
            rw [hj]
            simp
          rcases List.mem_append.mp hh1 with hmem | hmem
          · rw [hall1 h1 hmem] at h1w
            cases h1w
          · rw [hall2 h1 hmem] at h1w
            cases h1w
        · have h2f : c2.isEmpty = false := Bool.eq_false_iff.mpr h2e
          have h2ne : c2 ≠ [] := fun hnil => h2e (by rw [hnil]; rfl)
          simp only [h1e, h2f, Bool.false_eq_true, if_true, if_false,
            List.nil_append, List.isEmpty_cons, List.mem_singleton] at hc
          rw [hc]
          exact htrim2 h2ne
      · have h1f : c1.isEmpty = false := Bool.eq_false_iff.mpr h1e
        have h1ne : c1 ≠ [] := fun hnil => h1e (by rw [hnil]; rfl)
        by_cases h2e : c2.isEmpty = true
        · simp only [h1f, h2e, Bool.false_eq_true, if_true, if_false,
            List.append_nil, List.isEmpty_cons, List.mem_singleton] at hc
          rw [hc]
          exact htrim1 h1ne
        · have h2f : c2.isEmpty = false := Bool.eq_false_iff.mpr h2e
          have h2ne : c2 ≠ [] := fun hnil => h2e (by rw [hnil]; rfl)
          simp only [h1f, h2f, Bool.false_eq_true, if_false, List.cons_append,
            List.nil_append, List.isEmpty_cons, List.mem_cons,
            List.mem_singleton] at hc
          rcases hc with hm | hm | hm
          · rw [hm]
            exact htrim1 h1ne
          · rw [hm]
            exact htrim2 h2ne
          · cases hm

/-- C8: every chunk emitted by the transcript chunker (segmented or fallback
path) and every chunk emitted by the slide chunker has non-empty content
after trimming. -/
theorem chunker_nonempty_content :
    (∀ (cfg : TCfg) (doc : TDocument), ∀ c ∈ tchunk cfg doc, trim c.content ≠ [])
    ∧ (∀ (mc : Int) (doc : SDoc), ∀ c ∈ slide_chunk mc doc, trim c.content ≠ []) := by
  constructor
  · intro cfg doc c hc
    rw [tchunk] at hc
    by_cases hseg : doc.segments.isEmpty = true
    · rw [if_pos hseg] at hc
      simp only [fallback_chunks] at hc
      exact fallback_loop_nonempty doc cfg.max_words
        (wordsOf (clean_text doc.content))
        (wordsAux_mem (by intro x hx; cases hx)) _ _ _
        (by intro x hx; cases hx) c hc
    · rw [if_neg hseg] at hc
      have hinv : CInv (doc.segments.foldl (append_step cfg doc) ⟨[], []⟩) :=
        cinv_fold cfg doc doc.segments ⟨[], []⟩
          ⟨(by intro x hx; cases hx), (by intro x hx; cases hx)⟩
      set stf := doc.segments.foldl (append_step cfg doc) ⟨[], []⟩ with hstf
      by_cases hbuf : stf.buffer.isEmpty = true
      · rw [if_pos hbuf] at hc
        exact hinv.2 c hc
      · rw [if_neg hbuf] at hc
        rcases List.mem_append.mp hc with h1 | h2
        · exact hinv.2 c h1
        · rw [List.mem_singleton.mp h2]
          apply flush_content_ne
          obtain ⟨x, hx⟩ : ∃ x, x ∈ stf.buffer := by
            have hne : stf.buffer ≠ [] := fun hnil => hbuf (by rw [hnil]; rfl)
            exact List.exists_mem_of_ne_nil stf.buffer hne
          exact ⟨x, hx, hinv.1 x hx⟩
  · exact fun mc doc => slide_chunk_nonempty mc doc

/-- Witness: non-emptiness at a concrete transcript chunk and a concrete
slide chunk of the running examples. -/
theorem chunker_nonempty_content_witness :
    (∀ c ∈ tchunk ex_cfg ex_doc, trim c.content ≠ []) ∧
    (∀ c ∈ slide_chunk 5 c6_doc2, trim c.content ≠ []) :=
  ⟨fun c hc => chunker_nonempty_content.1 ex_cfg ex_doc c hc,
   fun c hc => chunker_nonempty_content.2 5 c6_doc2 c hc⟩

/-! ## Claim C5: monotonic time ranges under well-formed, sorted segments -/

theorem chunk_wf_le {c : TChunk} (h : chunk_wf c) :
    ∀ s e : Int, c.start_ms = some s → c.end_ms = some e → s ≤ e := by
  intro s e hs he
  obtain ⟨-, -, hle⟩ := h
  have h1 : c.start_ms.getD 0 = s := by rw [hs]; rfl
  have h2 : c.end_ms.getD 0 = e := by rw [he]; rfl
  rw [← h1, ← h2]
  exact hle

theorem flush_props (doc : TDocument) (st : TState) (rest : List TSegment)
    (h : TInv st rest) (b0 : TSegment) (bt : List TSegment)
    (hb0 : st.buffer = b0 :: bt) :
    chunk_wf (flush_chunk doc st.buffer st.chunks.length)
    ∧ chunk_start (flush_chunk doc st.buffer st.chunks.length) = start_val b0
    ∧ (∀ c ∈ st.chunks,
        chunk_start c ≤ chunk_start (flush_chunk doc st.buffer st.chunks.length)) := by
  obtain ⟨lst, hlst⟩ : ∃ lst, st.buffer.getLast? = some lst := by
    rw [hb0]
    cases hgl : (b0 :: bt).getLast? with
    | none => exact absurd (List.getLast?_eq_none_iff.mp hgl) (by simp)
    | some lst => exact ⟨lst, rfl⟩
  have hlst_mem : lst ∈ st.buffer := List.mem_of_mem_getLast? hlst
  have hb0_mem : b0 ∈ st.buffer := by rw [hb0]; simp
  have hb0_le : ∀ x ∈ st.buffer, start_val b0 ≤ start_val x := by
    intro x hx
    rw [hb0] at hx
    have hp := List.pairwise_cons.mp (hb0 ▸ h.buf_sorted)
    rcases List.mem_cons.mp hx with h1 | h1
    · rw [h1]
    · exact hp.1 x h1
  have hcs : (flush_chunk doc st.buffer st.chunks.length).start_ms = b0.start_ms := by
    show st.buffer.head?.bind TSegment.start_ms = b0.start_ms
    rw [hb0]
    rfl
  have hce : (flush_chunk doc st.buffer st.chunks.length).end_ms = lst.end_ms := by
    show st.buffer.getLast?.bind TSegment.end_ms = lst.end_ms
    rw [hlst]
    rfl
  obtain ⟨⟨s0, hs0⟩, -, -⟩ := h.buf_wf b0 hb0_mem
  obtain ⟨-, ⟨eL, heL⟩, hseL⟩ := h.buf_wf lst hlst_mem
  have hnew_start : chunk_start (flush_chunk doc st.buffer st.chunks.length) = start_val b0 := by
    show (flush_chunk doc st.buffer st.chunks.length).start_ms.getD 0 = b0.start_ms.getD 0
    rw [hcs]
  refine ⟨⟨⟨s0, by rw [hcs]; exact hs0⟩, ⟨eL, by rw [hce]; exact heL⟩, ?_⟩, hnew_start, ?_⟩
  · show (flush_chunk doc st.buffer st.chunks.length).start_ms.getD 0 ≤
      (flush_chunk doc st.buffer st.chunks.length).end_ms.getD 0
    rw [hcs, hce]
    calc b0.start_ms.getD 0 ≤ lst.start_ms.getD 0 := hb0_le lst hlst_mem
      _ ≤ lst.end_ms.getD 0 := hseL
  · intro c hc
    rw [hnew_start]
    exact h.chunks_buf c hc b0 hb0_mem

theorem tinv_step (cfg : TCfg) (doc : TDocument) (st : TState) (item : TSegment)
    (rest : List TSegment) (h : TInv st (item :: rest)) :
    TInv (append_step cfg doc st item) rest := by
  have hitem_wf : seg_wf item := h.rest_wf item (by simp)
  have hrest_wf : ∀ y ∈ rest, seg_wf y := fun y hy => h.rest_wf y (List.mem_cons_of_mem _ hy)
  have hitem_rest : ∀ y ∈ rest, start_val item ≤ start_val y :=
    (List.pairwise_cons.mp h.rest_sorted).1
  have hrest_sorted : rest.Pairwise (fun a b => start_val a ≤ start_val b) :=
    (List.pairwise_cons.mp h.rest_sorted).2
  simp only [append_step]
  by_cases ht : trim item.text = []
  · rw [if_pos ht]
    exact {
      buf_wf := h.buf_wf
      buf_sorted := h.buf_sorted
      buf_rest := fun x hx y hy => h.buf_rest x hx y (List.mem_cons_of_mem _ hy)
      rest_wf := hrest_wf
      rest_sorted := hrest_sorted
      chunks_sorted := h.chunks_sorted
      chunks_wf := h.chunks_wf
      chunks_buf := h.chunks_buf
      chunks_rest := fun c hc y hy => h.chunks_rest c hc y (List.mem_cons_of_mem _ hy) }
  · rw [if_neg ht]
    have hent_wf : seg_wf (buffer_entry item) := hitem_wf
    have hmid : TInv { chunks := st.chunks, buffer := st.buffer ++ [buffer_entry item] } rest := {
      buf_wf := by
        intro x hx
        rcases List.mem_append.mp hx with h1 | h2
        · exact h.buf_wf x h1
        · rw [List.mem_singleton.mp h2]
          exact hent_wf
      buf_sorted := by
        rw [List.pairwise_append]
        refine ⟨h.buf_sorted, by simp, ?_⟩
        intro x hx y hy
        rw [List.mem_singleton.mp hy]
        exact h.buf_rest x hx item (by simp)
      buf_rest := by
        intro x hx y hy
        rcases List.mem_append.mp hx with h1 | h2
        · exact h.buf_rest x h1 y (List.mem_cons_of_mem _ hy)
        · rw [List.mem_singleton.mp h2]
          exact hitem_rest y hy
      rest_wf := hrest_wf
      rest_sorted := hrest_sorted
      chunks_sorted := h.chunks_sorted
      chunks_wf := h.chunks_wf
      chunks_buf := by
        intro c hc x hx
        rcases List.mem_append.mp hx with h1 | h2
        · exact h.chunks_buf c hc x h1
        · rw [List.mem_singleton.mp h2]
          exact h.chunks_rest c hc item (by simp)
      chunks_rest := fun c hc y hy => h.chunks_rest c hc y (List.mem_cons_of_mem _ hy) }
    by_cases hr : chunk_ready cfg (st.buffer ++ [buffer_entry item]) = true
    · rw [if_pos hr]
      obtain ⟨b0, bt, hb0⟩ : ∃ b0 bt, st.buffer ++ [buffer_entry item] = b0 :: bt := by
        cases hsb : st.buffer with
        | nil => exact ⟨buffer_entry item, [], by simp [hsb]⟩
        | cons a t => exact ⟨a, t ++ [buffer_entry item], by simp [hsb]⟩
      obtain ⟨hfw, hfs, hfle⟩ := flush_props doc _ rest hmid b0 bt hb0
      have hb0_le : ∀ x ∈ st.buffer ++ [buffer_entry item], start_val b0 ≤ start_val x := by
        intro x hx
        rw [hb0] at hx
        have hp := List.pairwise_cons.mp (hb0 ▸ hmid.buf_sorted)
        rcases List.mem_cons.mp hx with h1 | h1
        · rw [h1]
        · exact hp.1 x h1
      have htail_sub : (overlap_tail cfg (st.buffer ++ [buffer_entry item])).Sublist
          (st.buffer ++ [buffer_entry item]) := overlap_tail_sublist cfg _
      exact {
        buf_wf := fun x hx => hmid.buf_wf x (htail_sub.mem hx)
        buf_sorted := hmid.buf_sorted.sublist htail_sub
        buf_rest := fun x hx y hy => hmid.buf_rest x (htail_sub.mem hx) y hy
        rest_wf := hrest_wf
        rest_sorted := hrest_sorted
        chunks_sorted := by
          rw [List.map_append, List.pairwise_append]
          refine ⟨hmid.chunks_sorted, by simp, ?_⟩
          intro a ha bb hbb
          obtain ⟨c, hc, rfl⟩ := List.mem_map.mp ha
          have hbb2 : bb = chunk_start (flush_chunk doc
              (st.buffer ++ [buffer_entry item]) st.chunks.length) := by
            simpa using hbb
          rw [hbb2]
          exact hfle c hc
        chunks_wf := by
          intro c hc
          rcases List.mem_append.mp hc with h1 | h2
          · exact hmid.chunks_wf c h1
          · rw [List.mem_singleton.mp h2]
            exact hfw
        chunks_buf := by
          intro c hc x hx
          have hxb := htail_sub.mem hx
          rcases List.mem_append.mp hc with h1 | h2
          · exact hmid.chunks_buf c h1 x hxb
          · rw [List.mem_singleton.mp h2]
            rw [hfs]
            exact hb0_le x hxb
        chunks_rest := by
          intro c hc y hy
          rcases List.mem_append.mp hc with h1 | h2
          · exact hmid.chunks_rest c h1 y hy
          · rw [List.mem_singleton.mp h2]
            rw [hfs]
            exact hmid.buf_rest b0 (by rw [hb0]; simp) y hy }
    · rw [if_neg hr]
      exact hmid

theorem tinv_fold (cfg : TCfg) (doc : TDocument) :
    ∀ (segs : List TSegment) (st : TState), TInv st segs →
      TInv (List.foldl (append_step cfg doc) st segs) [] := by
  intro segs
  induction segs with
  | nil =>
    intro st h
    exact h
  | cons i is ih =>
    intro st h
    exact ih _ (tinv_step cfg doc st i is h)

/-- C5, amended: for every input whose segments all carry known start_ms and
end_ms with start_ms ≤ end_ms, listed in non-decreasing start_ms order, every
chunk of the segmented path satisfies start_ms ≤ end_ms and the chunk
start_ms values are non-decreasing across the emitted sequence.  (On
arbitrary inputs the claim is false: the code copies timestamps unchecked,
see the counterexample.) -/
theorem transcript_monotonic_time_ranges (cfg : TCfg) (doc : TDocument)
    (hwf : ∀ x ∈ doc.segments, seg_wf x)
    (hsorted : doc.segments.Pairwise (fun a b => start_val a ≤ start_val b))
    (hne : doc.segments ≠ []) :
    (∀ c ∈ tchunk cfg doc, ∀ s e : Int,
        c.start_ms = some s → c.end_ms = some e → s ≤ e)
    ∧ ((tchunk cfg doc).map chunk_start).Pairwise (fun a b => a ≤ b) := by
  have hinv0 : TInv ⟨[], []⟩ doc.segments := {
    buf_wf := by intro x hx; cases hx
    buf_sorted := List.Pairwise.nil
    buf_rest := by intro x hx; cases hx
    rest_wf := hwf
    rest_sorted := hsorted
    chunks_sorted := List.Pairwise.nil
    chunks_wf := by intro c hc; cases hc
    chunks_buf := by intro c hc; cases hc
    chunks_rest := by intro c hc; cases hc }
  have hinv := tinv_fold cfg doc doc.segments ⟨[], []⟩ hinv0
  rw [tchunk, if_neg (by simpa using hne)]
  set stf := doc.segments.foldl (append_step cfg doc) ⟨[], []⟩ with hstf
  by_cases hbuf : stf.buffer.isEmpty = true
  · rw [if_pos hbuf]
    exact ⟨fun c hc => chunk_wf_le (hinv.chunks_wf c hc), hinv.chunks_sorted⟩
  · rw [if_neg hbuf]
    obtain ⟨b0, bt, hb0⟩ : ∃ b0 bt, stf.buffer = b0 :: bt := by
      have hne2 : stf.buffer ≠ [] := fun hnil => hbuf (by rw [hnil]; rfl)
      cases hsb : stf.buffer with
      | nil => exact absurd hsb hne2
      | cons a t => exact ⟨a, t, rfl⟩
    obtain ⟨hfw, hfs, hfle⟩ := flush_props doc stf [] hinv b0 bt hb0
    constructor
    · intro c hc
      rcases List.mem_append.mp hc with h1 | h2
      · exact chunk_wf_le (hinv.chunks_wf c h1)
      · rw [List.mem_singleton.mp h2]
        exact chunk_wf_le hfw
    · rw [List.map_append, List.pairwise_append]
      refine ⟨hinv.chunks_sorted, by simp, ?_⟩
      intro a ha bb hbb
      obtain ⟨c, hc, rfl⟩ := List.mem_map.mp ha
      have hbb2 : bb = chunk_start (flush_chunk doc stf.buffer stf.chunks.length) := by
        simpa using hbb
      rw [hbb2]
      exact hfle c hc

/-- Witness: the amended monotonicity theorem at the four-segment example,
whose segments are well-formed and sorted. -/
theorem transcript_monotonic_time_ranges_witness :
    (∀ c ∈ tchunk ex_cfg ex_doc, ∀ s e : Int,
        c.start_ms = some s → c.end_ms = some e → s ≤ e)
    ∧ ((tchunk ex_cfg ex_doc).map chunk_start).Pairwise (fun a b => a ≤ b) :=
  transcript_monotonic_time_ranges ex_cfg ex_doc
    (by
      intro x hx
      simp only [ex_doc, List.mem_cons, List.mem_singleton, List.not_mem_nil, or_false] at hx
      rcases hx with h | h | h | h <;>
        (subst h; exact ⟨⟨_, rfl⟩, ⟨_, rfl⟩, by decide⟩))
    (by decide) (by decide)

/-! ## Claim C6: the slide split bound -/

theorem exists_of_findSome {α β : Type} {f : α → Option β} {l : List α} {b : β}
    (h : List.findSome? f l = some b) : ∃ a ∈ l, f a = some b := by
  induction l with
  | nil => cases h
  | cons x xs ih =>
    cases hfx : f x with
    | some v =>
      simp only [List.findSome?_cons, hfx] at h
      exact ⟨x, by simp, by rw [hfx, h]⟩
    | none =>
      simp only [List.findSome?_cons, hfx] at h
      obtain ⟨a, ha, hfa⟩ := ih h
      exact ⟨a, List.mem_cons_of_mem _ ha, hfa⟩

theorem try_delim_some {st : Str} {start pref : Nat} {d : Str} {res : Nat}
    (h : try_delim st start pref d = some res) :
    ∃ pos, matchAt st d pos = true ∧ res = start + pos + d.length := by
  rw [try_delim] at h
  cases hr : py_rfind st d pref with
  | some pos =>
    rw [hr] at h
    have hres : start + pos + d.length = res := by injection h
    exact ⟨pos, (py_rfind_eq_some hr).2, hres.symm⟩
  | none =>
    rw [hr] at h
    cases hf : py_find st d pref with
    | some pos =>
      rw [hf] at h
      have hres : start + pos + d.length = res := by injection h
      exact ⟨pos, (py_find_eq_some hf).2, hres.symm⟩
    | none =>
      rw [hf] at h
      cases h

theorem matchAt_slice {t d : Str} {start stop pos : Nat} (hd : d ≠ [])
    (hstop : stop ≤ t.length)
    (h : matchAt ((t.take stop).drop start) d pos = true) :
    matchAt t d (start + pos) = true ∧ start + pos + d.length ≤ stop := by
  have hlen := matchAt_le_length hd h
  have hslen : ((t.take stop).drop start).length = stop - start := by
    rw [List.length_drop, List.length_take]
    omega
  rw [hslen] at hlen
  have hdpos : 0 < d.length := List.length_pos.mpr hd
  refine ⟨?_, by omega⟩
  simp only [matchAt, decide_eq_true_eq] at h ⊢
  have h1 : ((t.take stop).drop start).drop pos = (t.take stop).drop (start + pos) :=
    List.drop_drop pos start (t.take stop)
  have h2 : (t.take stop).drop (start + pos) =
      (t.drop (start + pos)).take (stop - (start + pos)) := List.drop_take ..
  rw [h1, h2, List.take_take] at h
  have hmin : min d.length (stop - (start + pos)) = d.length := by omega
  rw [hmin] at h
  exact h

theorem find_split_point_lt {t : Str} {pref : Nat}
    (hpref1 : 1 ≤ pref) (hpref2 : pref < t.length)
    (hlast : ∃ c, t.getLast? = some c ∧ isWs c = false) :
    1 ≤ find_split_point t pref ∧ find_split_point t pref < t.length := by
  simp only [find_split_point, find_split_point_with]
  cases hfs : List.findSome? (try_delim ((t.take (min t.length (pref + 200))).drop
      (pref - 200)) (pref - 200) (pref - (pref - 200))) delims_src with
  | none =>
    simp only [hfs]
    exact ⟨hpref1, hpref2⟩
  | some res =>
    simp only [hfs]
    obtain ⟨d, hdm, hdr⟩ := exists_of_findSome hfs
    obtain ⟨pos, hmat, hres⟩ := try_delim_some hdr
    have hd_ne : d ≠ [] := by
      have hall : ∀ d0 ∈ delims_src, d0 ≠ [] := by decide
      exact hall d hdm
    have hd_last_ws : (d.getLast?.map isWs).getD false = true := by
      have hall : ∀ d0 ∈ delims_src, (d0.getLast?.map isWs).getD false = true := by decide
      exact hall d hdm
    obtain ⟨cd, hcd⟩ : ∃ cd, d.getLast? = some cd := by
      cases hgl : d.getLast? with
      | none => rw [hgl] at hd_last_ws; cases hd_last_ws
      | some cd => exact ⟨cd, rfl⟩
    have hcdws : isWs cd = true := by
      rw [hcd] at hd_last_ws
      simpa using hd_last_ws
    have hstop : min t.length (pref + 200) ≤ t.length := min_le_left _ _
    obtain ⟨hmt, hble⟩ := matchAt_slice hd_ne hstop hmat
    have hdpos : 0 < d.length := List.length_pos.mpr hd_ne
    refine ⟨by omega, ?_⟩
    by_contra hge
    push_neg at hge
    have hres_le : res ≤ t.length := by omega
    have hres_len : (pref - 200) + pos + d.length = t.length := by omega
    simp only [matchAt, decide_eq_true_eq] at hmt
    have hdl : (t.drop ((pref - 200) + pos)).length = d.length := by
      rw [List.length_drop]
      omega
    have hdrop : t.drop ((pref - 200) + pos) = d := by
      rw [← hmt]
      exact (List.take_of_length_le (le_of_eq hdl)).symm
    have hgl_t : t.getLast? = d.getLast? := by
      conv_lhs => rw [← List.take_append_drop ((pref - 200) + pos) t]
      rw [List.getLast?_append_of_ne_nil _ (by rw [hdrop]; exact hd_ne)]
      rw [hdrop]
    obtain ⟨c, hc, hcw⟩ := hlast
    rw [hgl_t, hcd] at hc
    have hceq : cd = c := by injection hc
    rw [hceq] at hcdws
    rw [hcdws] at hcw
    cases hcw

set_option maxHeartbeats 2000000 in
set_option maxRecDepth 8192 in
/-- C6, amended: for max_chars = C ≥ 1 and non-empty cleaned content, a slide
whose cleaned length is at most C yields exactly one chunk with metadata
chunk 1 of 1 and strategy slide_chunking, and a longer slide yields exactly
two chunks, both with non-empty (trimmed) content, whose concatenation
reconstructs the cleaned content up to the whitespace trimmed at the single
split point.  (With C = 0 one half can be empty and only one chunk is
emitted, see the counterexample.) -/
theorem slide_split_bound (doc : SDoc) (C : Int) (hC : 1 ≤ C)
    (hne : clean_text doc.content ≠ []) :
    (((clean_text doc.content).length : Int) ≤ C →
      slide_chunk C doc =
        [{ id := doc.id, name := doc.name, content := clean_text doc.content,
           chunk := some 1, total_chunks := some 1,
           strategy := some "slide_chunking" }])
    ∧ (C < ((clean_text doc.content).length : Int) →
        ∃ c1 c2 w, slide_chunk C doc = [c1, c2]
          ∧ c1.content ≠ [] ∧ c2.content ≠ []
          ∧ trim c1.content ≠ [] ∧ trim c2.content ≠ []
          ∧ c1.chunk = some 1 ∧ c1.total_chunks = some 2
          ∧ c2.chunk = some 2 ∧ c2.total_chunks = some 2
          ∧ (∀ ch ∈ w, isWs ch = true)
          ∧ clean_text doc.content = c1.content ++ w ++ c2.content) := by
  constructor
  · intro hfit
    simp only [slide_chunk]
    rw [if_neg (by simpa using hne), if_pos hfit]
  · intro hbig
    have hlt : ¬ (((clean_text doc.content).length : Int) ≤ C) := by omega
    simp only [slide_chunk]
    rw [if_neg (by simpa using hne), if_neg hlt]
    obtain ⟨⟨h1, t1, hj, h1w⟩, hlast⟩ := clean_text_props hne
    have hlen2 : 2 ≤ (clean_text doc.content).length := by omega
    set L := clean_text doc.content with hL
    set p := find_split_point L (L.length / 2) with hp
    have hpref1 : 1 ≤ L.length / 2 := by omega
    have hpref2 : L.length / 2 < L.length := by omega
    have hsplit := find_split_point_lt hpref1 hpref2 hlast
    rw [← hp] at hsplit
    obtain ⟨hp1, hp2⟩ := hsplit
    have hdne : L.drop p ≠ [] := by
      intro hdn
      have h0 : (L.drop p).length = 0 := by rw [hdn]; rfl
      rw [List.length_drop] at h0
      omega
    obtain ⟨cL, hcL, hcLw⟩ := hlast
    have hgl2 : (L.drop p).getLast? = some cL := by
      rw [← hcL]
      conv_rhs => rw [← List.take_append_drop p L]
      rw [List.getLast?_append_of_ne_nil _ hdne]
    have hc1ne : trim (L.take p) ≠ [] := by
      rw [trim_ne_nil_iff]
      refine ⟨h1, ?_, h1w⟩
      rw [hj]
      cases hpv : p with
      | zero => omega
      | succ n => simp
    have hc2ne : trim (L.drop p) ≠ [] := by
      rw [trim_ne_nil_iff]
      exact ⟨cL, List.mem_of_mem_getLast? hgl2, hcLw⟩
    have h1f : (trim (L.take p)).isEmpty = false := by
      cases htn : trim (L.take p) with
      | nil => exact absurd htn hc1ne
      | cons a b => rfl
    have h2f : (trim (L.drop p)).isEmpty = false := by
      cases htn : trim (L.drop p) with
      | nil => exact absurd htn hc2ne
      | cons a b => rfl
    simp only [h1f, h2f, Bool.false_eq_true, if_false, List.cons_append,
      List.nil_append, List.isEmpty_cons]
    have httr1 : trim (trim (L.take p)) ≠ [] := by
      rw [trim_ne_nil_iff]
      obtain ⟨ch, hch, hchw⟩ := trim_ne_nil_iff.mp hc1ne
      exact ⟨ch, mem_trim hch hchw, hchw⟩
    have httr2 : trim (trim (L.drop p)) ≠ [] := by
      rw [trim_ne_nil_iff]
      obtain ⟨ch, hch, hchw⟩ := trim_ne_nil_iff.mp hc2ne
      exact ⟨ch, mem_trim hch hchw, hchw⟩
    have hhead_ne : ∀ c0, (L.take p).head? = some c0 → isWs c0 = false := by
      intro c0 hc0
      rw [hj] at hc0
      cases hpv : p with
      | zero => omega
      | succ n =>
        rw [hpv, List.take_succ_cons] at hc0
        have hc0e : h1 = c0 := by injection hc0
        rw [← hc0e]
        exact h1w
    have hlast_ne : ∀ c0, (L.drop p).getLast? = some c0 → isWs c0 = false := by
      intro c0 hc0
      rw [hgl2] at hc0
      have hc0e : cL = c0 := by injection hc0
      rw [← hc0e]
      exact hcLw
    have htoh : trim (L.take p) = rtrim (L.take p) := trim_of_head hhead_ne
    have htod : trim (L.drop p) = ltrim (L.drop p) := trim_of_last hlast_ne
    obtain ⟨w1, hw1, hw1ws⟩ := rtrim_decomp (L.take p)
    obtain ⟨w2, hw2, hw2ws⟩ := ltrim_decomp (L.drop p)
    refine ⟨_, _, w1 ++ w2, rfl, hc1ne, hc2ne, httr1, httr2, rfl, rfl, rfl, rfl, ?_, ?_⟩
    · intro ch hch
      rcases List.mem_append.mp hch with hm | hm
      · exact hw1ws ch hm
      · exact hw2ws ch hm
    · show L = trim (L.take p) ++ (w1 ++ w2) ++ trim (L.drop p)
      rw [htoh, htod]
      calc L = L.take p ++ L.drop p := (List.take_append_drop p L).symm
        _ = (rtrim (L.take p) ++ w1) ++ (w2 ++ ltrim (L.drop p)) := by rw [← hw1, ← hw2]
        _ = rtrim (L.take p) ++ (w1 ++ w2) ++ ltrim (L.drop p) := by
            simp [List.append_assoc]

/-- Witness: the amended split-bound theorem at the two-character slide and
budget 5 (single-chunk branch). -/
theorem slide_split_bound_witness :
    slide_chunk 5 c6_doc2 =
      [{ id := c6_doc2.id, name := c6_doc2.name,
         content := clean_text c6_doc2.content,
         chunk := some 1, total_chunks := some 1,
         strategy := some "slide_chunking" }] :=
  (slide_split_bound c6_doc2 5 (by decide) (by decide)).1 (by decide)
